import Mathlib

/-
Verification development for the leader-simulator repository.

The core under study is the entity/relationship normalization pipeline in
src/app/lib/utils.ts (isLikelyEnglish, ENTITY_NAME_MAPPINGS,
normalizeEntityName, normalizeNetworkData) and the scenario-response
parser in src/app/app/api/leaders/scenario/route.ts.

JavaScript strings are sequences of UTF-16 code units; every string
appearing in this code base lies in the Basic Multilingual Plane, so a
string is modelled as a `List Nat` of code-unit values and `String.length`,
regex character-class tests and `includes` translate to list length,
per-element range tests and sublist search respectively.
-/

namespace LeaderSim

/-- A JavaScript string: its list of UTF-16 code-unit values. -/
abbrev JStr := List Nat

/-- Embed a Lean string literal (BMP characters only) as a `JStr`. -/
def js (s : String) : JStr := s.data.map Char.toNat

/-- The WhiteSpace/LineTerminator set used by JavaScript `trim` and `\s`:
TAB LF VT FF CR SP NBSP OGHAM-SP, U+2000..200A, LS, PS, NNBSP, MMSP,
IDEOGRAPHIC SPACE, ZWNBSP. -/
def jsIsWs (c : Nat) : Bool :=
  decide (c = 9 ∨ c = 10 ∨ c = 11 ∨ c = 12 ∨ c = 13 ∨ c = 32 ∨ c = 160 ∨
    c = 5760 ∨ (8192 ≤ c ∧ c ≤ 8202) ∨ c = 8232 ∨ c = 8233 ∨ c = 8239 ∨
    c = 8287 ∨ c = 12288 ∨ c = 65279)

/-- Unicode lowercasing for one code unit, restricted to the scripts this
repository's data exercises (ASCII and Cyrillic); other characters map to
themselves.  Like the full JavaScript `toLowerCase` mapping it is
idempotent and never moves a character into or out of the whitespace set,
which is all the general theorems below use. -/
def jsToLowerChar (c : Nat) : Nat :=
  if 65 ≤ c ∧ c ≤ 90 then c + 32            -- A..Z
  else if 1040 ≤ c ∧ c ≤ 1071 then c + 32   -- CYRILLIC А..Я (U+0410..U+042F)
  else if 1024 ≤ c ∧ c ≤ 1039 then c + 80   -- CYRILLIC Ѐ..Џ (U+0400..U+040F)
  else c

/-- JavaScript `s.toLowerCase()`. -/
def jsToLower (s : JStr) : JStr := s.map jsToLowerChar

/-- JavaScript `s.trim()`: strip leading and trailing JavaScript whitespace. -/
def jsTrim (s : JStr) : JStr :=
  ((s.dropWhile jsIsWs).reverse.dropWhile jsIsWs).reverse

/-- JavaScript `s.toLowerCase().trim()`, the combination used throughout utils.ts. -/
def lowerTrim (s : JStr) : JStr := jsTrim (jsToLower s)

/-- Whether `pre` is a prefix of `l` (JavaScript `startsWith`). -/
def jsStartsWith : JStr → JStr → Bool
  | _, [] => true
  | [], _ :: _ => false
  | a :: as, b :: bs => a == b && jsStartsWith as bs

/-- JavaScript `hay.includes(needle)`. -/
def jsIncludes (hay needle : JStr) : Bool :=
  (List.range (hay.length + 1)).any (fun i => jsStartsWith (hay.drop i) needle)

/- Character classes of the seven non-Latin script regexes in
isLikelyEnglish (src/app/lib/utils.ts lines 178-184). -/

/-- Regex `/[Ѐ-ӿ]/` -/
def isCyrChar (c : Nat) : Bool := decide (1024 ≤ c ∧ c ≤ 1279)

/-- Regex `/[一-鿿]/` -/
def isChineseChar (c : Nat) : Bool := decide (19968 ≤ c ∧ c ≤ 40959)

/-- Regex `/[؀-ۿ]/` -/
def isArabicChar (c : Nat) : Bool := decide (1536 ≤ c ∧ c ≤ 1791)

/-- Regex `/[가-힯]/` -/
def isKoreanChar (c : Nat) : Bool := decide (44032 ≤ c ∧ c ≤ 55215)

/-- Regex `/[Ͱ-Ͽ]/` -/
def isGreekChar (c : Nat) : Bool := decide (880 ≤ c ∧ c ≤ 1023)

/-- Regex `/[฀-๿]/` -/
def isThaiChar (c : Nat) : Bool := decide (3584 ≤ c ∧ c ≤ 3711)

/-- Regex `/[぀-ゟ]|[゠-ヿ]|[一-龯]/` -/
def isJapaneseChar (c : Nat) : Bool :=
  decide ((12352 ≤ c ∧ c ≤ 12447) ∨ (12448 ≤ c ∧ c ≤ 12543) ∨
    (19968 ≤ c ∧ c ≤ 40879))

/-- isLikelyEnglish (src/app/lib/utils.ts lines 174-198).  Each of the
seven regexes is tested WITHOUT the global flag, so
`(text.match(p) || []).length` is 1 when some character matches and 0
otherwise.  The JavaScript comparison
`nonLatinCount < text.length * 0.15` is computed in binary floating
point; since `nonLatinCount ≤ 7`, it coincides with the exact rational
comparison `nonLatinCount * 100 < text.length * 15` at every input (the
only integer boundary points below 47, count 3 / length 20 and
count 6 / length 40, both round to the exact product). -/
def isLikelyEnglish (text : JStr) : Bool :=
  if text = [] then true     -- `if (!text) return true`
  else
    let nonLatinCount :=
      (if text.any isCyrChar then 1 else 0) +
      (if text.any isChineseChar then 1 else 0) +
      (if text.any isArabicChar then 1 else 0) +
      (if text.any isKoreanChar then 1 else 0) +
      (if text.any isGreekChar then 1 else 0) +
      (if text.any isThaiChar then 1 else 0) +
      (if text.any isJapaneseChar then 1 else 0)
    nonLatinCount * 100 < text.length * 15

/-- First-match association lookup, the JStr-keyed map `get`. -/
def mapGet {α : Type} : List (JStr × α) → JStr → Option α
  | [], _ => none
  | (k', v) :: rest, k => if k' = k then some v else mapGet rest k

/-- ENTITY_NAME_MAPPINGS (src/app/lib/utils.ts lines 50-168), in source
order.  The object literal has no duplicate keys, so first-match lookup
agrees with JavaScript property access. -/
def ENTITY_NAME_MAPPINGS : List (JStr × JStr) := [
  (js "владимир путин", js "vladimir putin"),
  (js "путин", js "putin"),
  (js "россия", js "russia"),
  (js "украина", js "ukraine"),
  (js "зеленский", js "zelensky"),
  (js "владимир зеленский", js "volodymyr zelensky"),
  (js "сша", js "usa"),
  (js "соединенные штаты", js "united states"),
  (js "китай", js "china"),
  (js "си цзиньпин", js "xi jinping"),
  (js "европа", js "europe"),
  (js "европейский союз", js "european union"),
  (js "ес", js "eu"),
  (js "нато", js "nato"),
  (js "джо байден", js "joe biden"),
  (js "байден", js "biden"),
  (js "пентагон", js "pentagon"),
  (js "белый дом", js "white house"),
  (js "кремль", js "kremlin"),
  (js "индия", js "india"),
  (js "лавров", js "lavrov"),
  (js "сергей лавров", js "sergey lavrov"),
  (js "песков", js "peskov"),
  (js "дмитрий песков", js "dmitry peskov"),
  (js "мзс", js "ministry of foreign affairs"),
  (js "ἵνα ἀντερῶν", js "ivanka trump"),
  (js "αντΐτρουμπ jr", js "donald trump jr"),
  (js "μαρ-α-λαγο", js "mar-a-lago"),
  (js "ραφ-α-φαβρα", js "mar-a-lago"),
  (js "μαρ ο λέην", js "mar-a-lago"),
  (js "μαρ α λαγο", js "mar-a-lago"),
  (js "україна", js "ukraine"),
  (js "українa", js "ukraine"),
  (js "ведщим денисенко", js "vadym denysenko"),
  (js "денисенко", js "denysenko"),
  (js "вадим денисенко", js "vadym denysenko"),
  (js "вадим", js "vadym"),
  (js "трамп", js "trump"),
  (js "трaмп", js "trump"),
  (js "америка", js "america"),
  (js "американские президенты", js "american presidents"),
  (js "білий дім", js "white house"),
  (js "уніан", js "unian"),
  (js "гітлер", js "hitler"),
  (js "普京", js "putin"),
  (js "阿萨德", js "assad"),
  (js "泽连斯基", js "zelensky"),
  (js "ترامب", js "trump"),
  (js "بوتين", js "putin"),
  (js "ट्रम्प", js "trump"),
  (js "ट्रंप", js "trump"),
  (js "ট্রাম্প", js "trump"),
  (js "পুতিন", js "putin"),
  (js "američkih predsednika", js "american presidents"),
  (js "kremlj", js "kremlin"),
  (js "트럼프 행정부", js "trump administration"),
  (js "트럼프", js "donald trump"),
  (js "도널드 트럼프", js "donald trump"),
  (js "조 바이든", js "joe biden"),
  (js "바이든", js "biden"),
  (js "김정은", js "kim jong-un"),
  (js "블라디미르 푸틴", js "vladimir putin"),
  (js "푸틴", js "putin"),
  (js "시진핑", js "xi jinping"),
  (js "문재인", js "moon jae-in"),
  (js "윤석열", js "yoon suk-yeol"),
  (js "kim jong un", js "kim jong-un"),
  (js "kim jong-un", js "kim jong-un"),
  (js "xi", js "xi jinping"),
  (js "biden", js "joe biden"),
  (js "zelensky", js "volodymyr zelensky"),
  (js "zelenskyy", js "volodymyr zelensky"),
  (js "volodymyr zelenskyy", js "volodymyr zelensky"),
  (js "u.s.", js "usa"),
  (js "u.s.a.", js "usa"),
  (js "united states", js "usa"),
  (js "united states of america", js "usa"),
  (js "america", js "usa"),
  (js "dprk", js "north korea"),
  (js "rok", js "south korea"),
  (js "roc", js "taiwan"),
  (js "prc", js "china"),
  (js "grok ai", js "grok ai"),
  (js "tramp", js "trump"),
  (js "donald trump", js "donald trump"),
  (js "trumps", js "donald trump"),
  (js "vladimir putin", js "vladimir putin"),
  (js "v. putin", js "vladimir putin"),
  (js "vv putin", js "vladimir putin"),
  (js "volodymyr zelensky", js "volodymyr zelensky"),
  (js "president biden", js "joe biden"),
  (js "president xi", js "xi jinping"),
  (js "melania trump", js "melania trump"),
  (js "elon musk", js "elon musk"),
  (js "bettina anderson", js "bettina anderson"),
  (js "democrat", js "democrat")]

/-- The lookup-and-heuristics body of normalizeEntityName, applied to the
already lowercased-and-trimmed name (src/app/lib/utils.ts lines 213-243).
Every value of ENTITY_NAME_MAPPINGS is a nonempty string, hence truthy,
so `if (ENTITY_NAME_MAPPINGS[lowerName])` is a plain presence test. -/
def nekCore (lowerName : JStr) : JStr :=
  match mapGet ENTITY_NAME_MAPPINGS lowerName with
  | some mapped => mapped
  | none =>
    if jsIncludes lowerName (js "putin") then js "vladimir putin"
    else if jsIncludes lowerName (js "trump") &&
        !jsIncludes lowerName (js "ivanka") &&
        !jsIncludes lowerName (js "junior") &&
        !jsIncludes lowerName (js "jr") then js "donald trump"
    else if (jsIncludes lowerName (js "biden") ||
        jsIncludes lowerName (js "bidden")) &&
        !jsIncludes lowerName (js "hunter") then js "joe biden"
    else if jsIncludes lowerName (js "zelensky") ||
        jsIncludes lowerName (js "zelenskyy") then js "volodymyr zelensky"
    else if jsIncludes lowerName (js "jinping") ||
        (jsIncludes lowerName (js "xi") && lowerName.length < 15) then
      js "xi jinping"
    else lowerName

/-- normalizeEntityName (src/app/lib/utils.ts lines 210-244). -/
def normalizeEntityName (name : JStr) : JStr :=
  if name = [] then []
  else nekCore (lowerTrim name)

/-! ## The JavaScript Map / Set model

`normalizeNetworkData` uses insertion-ordered `Map`s and `Set`s.  A `Map`
is an association list in insertion order: `set` overwrites the value in
place when the key is present and appends otherwise, `get` is first-match
lookup (`mapGet` above); iteration (`forEach`, `keys`, `values`) follows
the list.  A `Set` is a list of members, `add` appending when absent;
only membership is consumed below. -/

/-- JavaScript `Map.set`: update in place or append. -/
def mapSet {α : Type} : List (JStr × α) → JStr → α → List (JStr × α)
  | [], k, v => [(k, v)]
  | (k', v') :: rest, k, v =>
    if k' = k then (k, v) :: rest else (k', v') :: mapSet rest k v

/-- JavaScript `Map.has`. -/
def mapHas {α : Type} (m : List (JStr × α)) (k : JStr) : Bool :=
  (mapGet m k).isSome

/-- JavaScript `Set.add`: append when absent. -/
def setAdd (s : List JStr) (k : JStr) : List JStr :=
  if k ∈ s then s else s ++ [k]

/-- JavaScript `[...new Set(l)]`: deduplicate keeping first occurrences. -/
def jsDedup (l : List JStr) : List JStr :=
  l.foldl setAdd []

/-! ## Data model

Raw records as received from extraction (fields that may be absent in the
JavaScript objects are modelled as the empty string, which is exactly how
the code treats them: `!entity.name` and `(rel.source || '')` see empty
and absent alike). -/

structure RawEntity where
  name : JStr
  type_ : JStr
  role : JStr
deriving DecidableEq

structure RawRel where
  source : JStr
  target : JStr
  type_ : JStr
  sentiment : JStr
  strength : Int
  description : JStr
deriving DecidableEq

/-- A canonical entity record held in the `normalizedEntities` map. -/
structure NormEntity where
  name : JStr
  type_ : JStr
  role : JStr
  original_names : List JStr
deriving DecidableEq

/-- An output relationship.  Fallback edges carry no
`source_original`/`target_original` (absent in the pushed object), hence
the `Option`; `is_fallback` is absent on real edges, and absent reads as
falsy, hence `false`. -/
structure NormRel where
  source : JStr
  target : JStr
  type_ : JStr
  sentiment : JStr
  strength : Int
  description : JStr
  source_original : Option JStr
  target_original : Option JStr
  is_fallback : Bool
deriving DecidableEq

structure NetworkData where
  entities : List NormEntity
  relationships : List NormRel
deriving DecidableEq

/-! ## normalizeNetworkData (src/app/lib/utils.ts lines 254-493)

The function is embedded step by step, mirroring the source's five
steps; `normalizeNetworkData` assembles them. -/

/-- Step 1, entity pass (lines 269-286): record original→normalized and
normalized→normalized in `entityMap`, and collect non-English original
surface forms. -/
def pass1Entity (st : List (JStr × JStr) × List JStr) (e : RawEntity) :
    List (JStr × JStr) × List JStr :=
  if e.name = [] then st
  else
    let originalName := lowerTrim e.name
    let normalizedName := normalizeEntityName originalName
    let em := mapSet (mapSet st.1 originalName normalizedName)
      normalizedName normalizedName
    let ne := if isLikelyEnglish originalName then st.2 else setAdd st.2 originalName
    (em, ne)

/-- Step 1, relationship pass (lines 289-314): add names that appear only
as relationship endpoints.  A name already in `entityMap` is skipped and
in particular is not tested for English there. -/
def pass1RelSide (st : List (JStr × JStr) × List JStr) (s : JStr) :
    List (JStr × JStr) × List JStr :=
  if s ≠ [] ∧ ¬ mapHas st.1 s then
    let normalized := normalizeEntityName s
    let em := mapSet (mapSet st.1 s normalized) normalized normalized
    let ne := if isLikelyEnglish s then st.2 else setAdd st.2 s
    (em, ne)
  else st

def pass1Rel (st : List (JStr × JStr) × List JStr) (r : RawRel) :
    List (JStr × JStr) × List JStr :=
  pass1RelSide (pass1RelSide st (lowerTrim r.source)) (lowerTrim r.target)

/-- The `entityMap` and `nonEnglishNames` after step 1. -/
def pass1 (entities : List RawEntity) (relationships : List RawRel) :
    List (JStr × JStr) × List JStr :=
  relationships.foldl pass1Rel (entities.foldl pass1Entity ([], []))

/-- Step 2 (lines 320-342): materialize canonical entity records for the
raw entities, merging `original_names` on collision.  The `none` branch
of the lookup is unreachable: step 1 put every nonempty entity name into
`entityMap`. -/
def step2Entity (em : List (JStr × JStr)) (nonEng : List JStr)
    (englishOnly : Bool) (nem : List (JStr × NormEntity)) (e : RawEntity) :
    List (JStr × NormEntity) :=
  if e.name = [] then nem
  else
    let originalName := lowerTrim e.name
    match mapGet em originalName with
    | none => nem
    | some normalizedName =>
      if englishOnly ∧ originalName ∈ nonEng then nem
      else
        match mapGet nem normalizedName with
        | some existing =>
          mapSet nem normalizedName
            { existing with
              original_names := jsDedup (existing.original_names ++ [originalName]) }
        | none =>
          mapSet nem normalizedName
            { name := normalizedName, type_ := e.type_, role := e.role,
              original_names := [originalName] }

/-- Step 3 (lines 345-380): materialize relationship-implied entities
with default type "person" and role "Unknown".  Again the `none` lookup
branch is unreachable after step 1. -/
def step3AddSide (em : List (JStr × JStr)) (nem : List (JStr × NormEntity))
    (original : JStr) : List (JStr × NormEntity) :=
  match mapGet em original with
  | none => nem
  | some normalized =>
    if mapHas nem normalized then nem
    else
      mapSet nem normalized
        { name := normalized, type_ := js "person", role := js "Unknown",
          original_names := [original] }

def step3Rel (em : List (JStr × JStr)) (nonEng : List JStr)
    (englishOnly : Bool) (nem : List (JStr × NormEntity)) (r : RawRel) :
    List (JStr × NormEntity) :=
  let sourceOriginal := lowerTrim r.source
  let targetOriginal := lowerTrim r.target
  if sourceOriginal = [] ∨ targetOriginal = [] then nem
  else if englishOnly ∧ (sourceOriginal ∈ nonEng ∨ targetOriginal ∈ nonEng) then nem
  else step3AddSide em (step3AddSide em nem sourceOriginal) targetOriginal

/-- The `normalizedEntities` map after steps 2 and 3. -/
def materialize (entities : List RawEntity) (relationships : List RawRel)
    (em : List (JStr × JStr)) (nonEng : List JStr) (englishOnly : Bool) :
    List (JStr × NormEntity) :=
  relationships.foldl (step3Rel em nonEng englishOnly)
    (entities.foldl (step2Entity em nonEng englishOnly) [])

/-- Step 4 (lines 383-416): rewrite one relationship to canonical names,
or drop it (`null`).  A `get` miss would yield `undefined`, which the
subsequent `has` test rejects, so both are the `none` outcome. -/
def step4Rel (em : List (JStr × JStr)) (nonEng : List JStr)
    (englishOnly : Bool) (nem : List (JStr × NormEntity)) (r : RawRel) :
    Option NormRel :=
  let sourceOriginal := lowerTrim r.source
  let targetOriginal := lowerTrim r.target
  if sourceOriginal = [] ∨ targetOriginal = [] then none
  else if englishOnly ∧ (sourceOriginal ∈ nonEng ∨ targetOriginal ∈ nonEng) then none
  else
    match mapGet em sourceOriginal, mapGet em targetOriginal with
    | some sourceNormalized, some targetNormalized =>
      if mapHas nem sourceNormalized ∧ mapHas nem targetNormalized then
        some { source := sourceNormalized, target := targetNormalized,
               type_ := r.type_, sentiment := r.sentiment,
               strength := r.strength, description := r.description,
               source_original := some sourceOriginal,
               target_original := some targetOriginal,
               is_fallback := false }
      else none
    | _, _ => none

/-- The surviving normalized relationships after step 4. -/
def normalizeRels (relationships : List RawRel) (em : List (JStr × JStr))
    (nonEng : List JStr) (englishOnly : Bool)
    (nem : List (JStr × NormEntity)) : List NormRel :=
  relationships.filterMap (step4Rel em nonEng englishOnly nem)

/-- Step 5 (lines 420-424): the `connectedEntities` set. -/
def connectedOf (nrs : List NormRel) : List JStr :=
  nrs.foldl (fun s r => setAdd (setAdd s r.source) r.target) []

/-- Step 5 (lines 431-435): the `entityConnectionCounts` map. -/
def bumpCount (m : List (JStr × Nat)) (k : JStr) : List (JStr × Nat) :=
  mapSet m k ((mapGet m k).getD 0 + 1)

def countsOf (nrs : List NormRel) : List (JStr × Nat) :=
  nrs.foldl (fun m r => bumpCount (bumpCount m r.source) r.target) []

/-- Step 5 (lines 438-444): the max-degree scan.  The accumulator starts
at `('', 0)` and is replaced whenever a strictly larger count appears. -/
def scanMax (acc : JStr × Nat) : List (JStr × Nat) → JStr × Nat
  | [] => acc
  | (entityName, count) :: rest =>
    scanMax (if count > acc.2 then (entityName, count) else acc) rest

/-- Step 5 (lines 438-449): `mainEntityName`, falling back to the first
materialized entity when the scan found nothing. -/
def mainEntityNameOf (nem : List (JStr × NormEntity)) (nrs : List NormRel) :
    JStr :=
  let scanned := (scanMax ([], 0) (countsOf nrs)).1
  if scanned = [] ∧ 0 < nem.length then ((nem.map Prod.fst).headD []) else scanned

/-- The fallback relationship pushed for an orphaned entity
(lines 464-472). -/
def fallbackRel (mainEntityName entityName : JStr) : NormRel :=
  { source := mainEntityName, target := entityName, type_ := js "connection",
    sentiment := js "neutral", strength := 1,
    description := js "Connected entities", source_original := none,
    target_original := none, is_fallback := true }

/-- Step 5 (lines 457-476): append one fallback edge per orphaned entity,
in entity-map iteration order.  `mainEntity` is truthy exactly when
`mainEntityName` is nonempty and present in the map. -/
def fallbacksOf (nem : List (JStr × NormEntity)) (nrs : List NormRel) :
    List NormRel :=
  let connected := connectedOf nrs
  let mainEntityName := mainEntityNameOf nem nrs
  let mainEntityTruthy := mainEntityName ≠ [] ∧ mapHas nem mainEntityName
  nem.filterMap fun p =>
    if p.1 ∉ connected ∧ mainEntityTruthy ∧ p.1 ≠ mainEntityName then
      some (fallbackRel mainEntityName p.1)
    else none

/-- normalizeNetworkData (src/app/lib/utils.ts lines 254-493). -/
def normalizeNetworkData (entities : List RawEntity)
    (relationships : List RawRel) (englishOnly : Bool) : NetworkData :=
  let st := pass1 entities relationships
  let nem := materialize entities relationships st.1 st.2 englishOnly
  let nrs := normalizeRels relationships st.1 st.2 englishOnly nem
  { entities := nem.map Prod.snd,
    relationships := nrs ++ fallbacksOf nem nrs }

/-! ## Scenario-response parsing
(src/app/app/api/leaders/scenario/route.ts lines 95-184)

The section extractors are regexes of the shape
`/Header:([\s\S]+?)(?=Next:|$)/`: the first position where `Header:` is
followed by at least one character starts the match, and the lazy capture
ends at the first later position where `Next:` starts or the string ends.
The last extractor, `/Header:([\s\S]+)/`, captures greedily to the end.
The captured group is trimmed; a failed match yields `""`. -/

/-- LineTerminator characters, the characters regex `.` does not match. -/
def jsIsLineTerm (c : Nat) : Bool :=
  decide (c = 10 ∨ c = 13 ∨ c = 8232 ∨ c = 8233)

/-- First index where `header` occurs with at least one character after
it (the lazy `[\s\S]+?` needs one). -/
def firstHeaderPos (content header : JStr) : Option Nat :=
  (List.range content.length).find? fun i =>
    jsStartsWith (content.drop i) header &&
      decide (i + header.length < content.length)

/-- Least position strictly after `j0` where `stop` starts or the content
ends: where the lazy capture stops. -/
def sectionEnd (content stop : JStr) (j0 : Nat) : Nat :=
  (((List.range (content.length + 1)).filter fun j =>
    decide (j0 < j) &&
      (jsStartsWith (content.drop j) stop || decide (j = content.length)))).headD
    content.length

/-- JavaScript `content.match(/header([\s\S]+?)(?=stop|$)/)`, trimmed group or "". -/
def matchSection (content header stop : JStr) : JStr :=
  match firstHeaderPos content header with
  | none => []
  | some i =>
    let j0 := i + header.length
    jsTrim ((content.take (sectionEnd content stop j0)).drop j0)

/-- JavaScript `content.match(/header([\s\S]+)/)`, trimmed group or "". -/
def matchTail (content header : JStr) : JStr :=
  match firstHeaderPos content header with
  | none => []
  | some i => jsTrim (content.drop (i + header.length))

structure ScenarioSections where
  summary : JStr
  network_impact : JStr
  political_outcomes : JStr
  key_entities : JStr
  key_relationships : JStr
deriving DecidableEq

/-- parseScenarioResponse (route.ts lines 95-119). -/
def parseScenarioResponse (content : JStr) : ScenarioSections :=
  { summary := matchSection content (js "Summary:") (js "Network Impact:"),
    network_impact :=
      matchSection content (js "Network Impact:") (js "Political Outcomes:"),
    political_outcomes :=
      matchSection content (js "Political Outcomes:") (js "Key Entities Affected:"),
    key_entities :=
      matchSection content (js "Key Entities Affected:")
        (js "Key Relationships Affected:"),
    key_relationships :=
      matchTail content (js "Key Relationships Affected:") }

/-- JavaScript `text.split('\n')`; the split of `""` is `[""]`. -/
def jsSplitOnNl : JStr → List JStr
  | [] => [[]]
  | c :: rest =>
    match jsSplitOnNl rest with
    | [] => if c = 10 then [[], []] else [[c]]
    | h :: t => if c = 10 then [] :: h :: t else (c :: h) :: t

structure ScenarioEntity where
  name : JStr
  impact : JStr
deriving DecidableEq

structure ScenarioRelationship where
  source : JStr
  target : JStr
  change : JStr
deriving DecidableEq

/-- One attempt of `/[•\-*]?\s*([^:]+):(.+)/` at start position `p` of a
line.  The optional bullet and `\s*` are greedy; `[^:]+` cannot cross a
colon, so the colon matched is the first colon of the remainder, and the
engine backtracks by exactly one character (a space, or the unconsumed
bullet) when that colon sits at the capture start.  `.` matches
everything but line terminators. -/
def tryEntityAt (line : JStr) (p : Nat) : Option ScenarioEntity :=
  match hr : line.drop p with
  | [] => none
  | c :: _ =>
    let rest := line.drop p
    let b : Nat := if c = 8226 ∨ c = 45 ∨ c = 42 then 1 else 0
    let s := ((rest.drop b).takeWhile jsIsWs).length
    let pre := b + s
    match rest.findIdx? (fun x => x == 58) with
    | none => none
    | some q =>
      if q = 0 then none
      else
        let cap2 := (rest.drop (q + 1)).takeWhile (fun x => !jsIsLineTerm x)
        if cap2 = [] then none
        else
          let cap1 :=
            if pre < q then (rest.take q).drop pre
            else (rest.take q).drop (q - 1)
          some { name := jsTrim cap1, impact := jsTrim cap2 }

/-- JavaScript `line.match(/[•\-*]?\s*([^:]+):(.+)/)`: first matching position. -/
def parseEntityLine (line : JStr) : Option ScenarioEntity :=
  (List.range line.length).findSome? (tryEntityAt line)

/-- parseKeyEntities (route.ts lines 127-143). -/
def parseKeyEntities (entityText : JStr) : List ScenarioEntity :=
  ((jsSplitOnNl entityText).filter fun l => jsTrim l ≠ []).filterMap
    parseEntityLine

/-- One attempt of `/[•\-*]?\s*([^S]+)SEP\s*([^:]+):(.+)/` at position `p`,
where the first capture's class excludes the characters `isSepChar` of the
separator `SEP` (the arrow or dash character, or the letters of `and` for
`[^and]+and`), `sepLen` is the separator's length and `sepAt` tests that
the separator itself starts at the found character.  Since neither
capture class can cross its delimiter, the separator sits at the first
excluded character after the capture start and the colon at the first
colon after the separator; each capture backtracks at most one character
(a space, or the unconsumed bullet) when its delimiter sits at its
start. -/
def tryRelAt (isSepChar : Nat → Bool) (sepLen : Nat) (sepAt : JStr → Bool)
    (line : JStr) (p : Nat) : Option ScenarioRelationship :=
  match hr : line.drop p with
  | [] => none
  | c :: _ =>
    let rest := line.drop p
    let b : Nat := if c = 8226 ∨ c = 45 ∨ c = 42 then 1 else 0
    let s := ((rest.drop b).takeWhile jsIsWs).length
    let pre := b + s
    match (rest.drop pre).findIdx? isSepChar with
    | none => none
    | some frel =>
      let f := pre + frel
      let cap1ok : Bool :=
        decide (0 < frel) || decide (0 < s) || (decide (b = 1) && !isSepChar c)
      if !cap1ok then none
      else if !sepAt (rest.drop f) then none
      else
        let cap1 :=
          if 0 < frel then (rest.take f).drop pre
          else (rest.take f).drop (f - 1)
        let j0 := f + sepLen
        let s2 := ((rest.drop j0).takeWhile jsIsWs).length
        match (rest.drop j0).findIdx? (fun x => x == 58) with
        | none => none
        | some qrel =>
          if s2 = qrel ∧ s2 = 0 then none
          else
            let q := j0 + qrel
            let cap2 :=
              if s2 < qrel then (rest.take q).drop (j0 + s2)
              else (rest.take q).drop (q - 1)
            let cap3 := (rest.drop (q + 1)).takeWhile (fun x => !jsIsLineTerm x)
            if cap3 = [] then none
            else
              some { source := jsTrim cap1, target := jsTrim cap2,
                     change := jsTrim cap3 }

/-- The three relationship line patterns of parseKeyRelationships
(route.ts lines 158-160), tried in source order. -/
def parseRelLine (line : JStr) : Option ScenarioRelationship :=
  let arrowM :=
    (List.range line.length).findSome?
      (tryRelAt (fun x => x == 8594) 1 (fun _ => true) line)
  let dashM :=
    (List.range line.length).findSome?
      (tryRelAt (fun x => x == 45) 1 (fun _ => true) line)
  let andM :=
    (List.range line.length).findSome?
      (tryRelAt (fun x => x == 97 || x == 110 || x == 100) 3
        (fun r => jsStartsWith r (js "and")) line)
  match arrowM, dashM with
  | some m, _ => some m
  | none, some m => some m
  | none, none => andM

/-- parseKeyRelationships (route.ts lines 152-184). -/
def parseKeyRelationships (relationshipText : JStr) : List ScenarioRelationship :=
  ((jsSplitOnNl relationshipText).filter fun l => jsTrim l ≠ []).filterMap
    parseRelLine


/-! ## Derived definitions used by the development

Invariant predicates, specification-side characterizations and named
pipeline stages referenced by the theorems below. -/

/-- The canonical names produced by the substring heuristics. -/
def heuristicOutputs : List JStr :=
  [js "vladimir putin", js "donald trump", js "joe biden",
   js "volodymyr zelensky", js "xi jinping"]

/-- The values of the alias table. -/
def mappingValues : List JStr := ENTITY_NAME_MAPPINGS.map Prod.snd

/-- The keys of a map, in insertion order. -/
def keysOf {α : Type} (m : List (JStr × α)) : List JStr := m.map Prod.fst

/-- The key/English invariant of step 1: every key of the entity map is
either recorded as non-English or classified as likely English. -/
def engInv (st : List (JStr × JStr) × List JStr) : Prop :=
  ∀ k ∈ keysOf st.1, k ∈ st.2 ∨ isLikelyEnglish k = true

/-- The nonempty-value invariant of step 1: the value stored at a
nonempty key is nonempty. -/
def valInv (st : List (JStr × JStr) × List JStr) : Prop :=
  ∀ p ∈ st.1, p.1 ≠ [] → p.2 ≠ []

/-- The stored-record invariant: every record's `name` is its key. -/
def nameInv (nem : List (JStr × NormEntity)) : Prop :=
  ∀ p ∈ nem, p.2.name = p.1

/-- Every surface form stored in some record's `original_names` is a key
of the entity map and, under `englishOnly`, was not flagged
non-English. -/
def onsInv (em : List (JStr × JStr)) (neg : List JStr) (eo : Bool)
    (nem : List (JStr × NormEntity)) : Prop :=
  ∀ p ∈ nem, ∀ nm ∈ p.2.original_names,
    nm ∈ keysOf em ∧ (eo = true → nm ∉ neg)

/-- Later pipeline steps never shrink a stored record: its name survives
and its `original_names` only grow. -/
def presMap (m m' : List (JStr × NormEntity)) : Prop :=
  ∀ c v, mapGet m c = some v → ∃ v', mapGet m' c = some v' ∧
    v'.name = v.name ∧ ∀ nm ∈ v.original_names, nm ∈ v'.original_names

/-- The maximum stored degree (0 when the map is empty). -/
def maxKeyVal (l : List (JStr × Nat)) : Nat := (l.map Prod.snd).foldr max 0

/-- What the spec describes: the first entry of the degree map that
attains the maximum degree. -/
def specFirstMax (l : List (JStr × Nat)) : Option JStr :=
  (l.find? fun p => p.2 == maxKeyVal l).map Prod.fst

/-- The entity map after step 1. -/
def entityMapOf (es : List RawEntity) (rs : List RawRel) : List (JStr × JStr) :=
  (pass1 es rs).1

/-- The non-English name set after step 1. -/
def nonEnglishOf (es : List RawEntity) (rs : List RawRel) : List JStr :=
  (pass1 es rs).2

/-- The materialized entity map after steps 2 and 3. -/
def materializedOf (es : List RawEntity) (rs : List RawRel) (eo : Bool) :
    List (JStr × NormEntity) :=
  materialize es rs (entityMapOf es rs) (nonEnglishOf es rs) eo

/-- The surviving relationships after step 4. -/
def survivingRelsOf (es : List RawEntity) (rs : List RawRel) (eo : Bool) :
    List NormRel :=
  normalizeRels rs (entityMapOf es rs) (nonEnglishOf es rs) eo
    (materializedOf es rs eo)

/-- The hub (`mainEntityName`) of step 5. -/
def hubOf (es : List RawEntity) (rs : List RawRel) (eo : Bool) : JStr :=
  mainEntityNameOf (materializedOf es rs eo) (survivingRelsOf es rs eo)

end LeaderSim

namespace LeaderSim

/-! ## Specification-side definitions

These two definitions follow the CLAIMS' wording, not the code: the
claims speak of the number of characters falling in the designated
script ranges, and of the number of script patterns that match. -/

/-- Number of characters of `t` lying in the designated non-Latin script
ranges (the reading the spec's threshold claim takes). -/
def specNonLatinCharCount (t : JStr) : Nat :=
  t.countP fun c =>
    isCyrChar c || isChineseChar c || isArabicChar c || isKoreanChar c ||
    isGreekChar c || isThaiChar c || isJapaneseChar c

/-- Number of the seven script patterns that match `t` at least once
(what the non-global regexes actually count). -/
def scriptMatchCount (t : JStr) : Nat :=
  (([isCyrChar, isChineseChar, isArabicChar, isKoreanChar, isGreekChar,
    isThaiChar, isJapaneseChar] : List (Nat → Bool)).filter
      fun pat => t.any pat).length

/-! ## Claim C10 -/

/-- Claim C10: for every string of length at least 47, isLikelyEnglish
returns true regardless of content: each of the seven script regexes is
tested without a global flag, so each contributes at most one match and
the non-Latin count never exceeds 7, which is below 15% of any length of
47 or more. -/
theorem claim_C10_long_strings_likely_english (t : JStr) (h : 47 ≤ t.length) :
    isLikelyEnglish t = true := by
  have ht : ¬ t = [] := by
    intro he
    rw [he] at h
    simp at h
  have b1 : (if t.any isCyrChar then 1 else 0) ≤ 1 := by split <;> omega
  have b2 : (if t.any isChineseChar then 1 else 0) ≤ 1 := by split <;> omega
  have b3 : (if t.any isArabicChar then 1 else 0) ≤ 1 := by split <;> omega
  have b4 : (if t.any isKoreanChar then 1 else 0) ≤ 1 := by split <;> omega
  have b5 : (if t.any isGreekChar then 1 else 0) ≤ 1 := by split <;> omega
  have b6 : (if t.any isThaiChar then 1 else 0) ≤ 1 := by split <;> omega
  have b7 : (if t.any isJapaneseChar then 1 else 0) ≤ 1 := by split <;> omega
  simp only [isLikelyEnglish, if_neg ht, decide_eq_true_eq]
  omega

/-- Witness: a 47-character all-Cyrillic string is classified as likely
English. -/
theorem claim_C10_witness :
    47 ≤ (js "яяяяяяяяяяяяяяяяяяяяяяяяяяяяяяяяяяяяяяяяяяяяяяя").length ∧
    isLikelyEnglish (js "яяяяяяяяяяяяяяяяяяяяяяяяяяяяяяяяяяяяяяяяяяяяяяя") = true :=
  ⟨by decide, claim_C10_long_strings_likely_english _ (by decide)⟩

end LeaderSim

namespace LeaderSim

/-! ## Claim C4 -/

/-- Claim C4, counterexample: the claim says isLikelyEnglish is true iff
the number of characters in the designated ranges is below 15% of the
length, and that a 20-character string with exactly 4 Cyrillic characters
yields false; but the regexes are not global, so the 4 Cyrillic
characters count once and the function returns true. -/
theorem claim_C4_counterexample :
    (js "путиabcdefghijklmnop").length = 20 ∧
    specNonLatinCharCount (js "путиabcdefghijklmnop") = 4 ∧
    isLikelyEnglish (js "путиabcdefghijklmnop") = true := by decide

set_option maxHeartbeats 1600000 in
/-- Claim C4 as amended: isLikelyEnglish classifies a nonempty string as
English-like iff the number of the seven script patterns that match it at
least once (each pattern counted at most once, the regexes having no
global flag) is strictly below 15% of the string's length; in particular
both the 20-character string with exactly 3 Cyrillic characters and the
one with exactly 4 return true. -/
theorem claim_C4_amended_english_iff_few_script_matches :
    (∀ t : JStr, t ≠ [] →
      (isLikelyEnglish t = true ↔ scriptMatchCount t * 100 < t.length * 15)) ∧
    isLikelyEnglish (js "путabcdefghijklmnopq") = true ∧
    isLikelyEnglish (js "путиabcdefghijklmnop") = true := by
  refine ⟨fun t ht => ?_, by decide, by decide⟩
  have hcnt : scriptMatchCount t =
      (if t.any isCyrChar then 1 else 0) +
      (if t.any isChineseChar then 1 else 0) +
      (if t.any isArabicChar then 1 else 0) +
      (if t.any isKoreanChar then 1 else 0) +
      (if t.any isGreekChar then 1 else 0) +
      (if t.any isThaiChar then 1 else 0) +
      (if t.any isJapaneseChar then 1 else 0) := by
    simp only [scriptMatchCount, List.filter_cons, List.filter_nil]
    split_ifs <;> rfl
  simp only [isLikelyEnglish, if_neg ht, decide_eq_true_eq, hcnt]

/-- Witness for the amended claim at the 3-Cyrillic boundary string. -/
theorem claim_C4_amended_witness :
    isLikelyEnglish (js "путabcdefghijklmnopq") = true ↔
      scriptMatchCount (js "путabcdefghijklmnopq") * 100 <
        (js "путabcdefghijklmnopq").length * 15 :=
  claim_C4_amended_english_iff_few_script_matches.1 _ (by decide)

end LeaderSim

namespace LeaderSim

/-! ## Claim C8 -/

/-- Claim C8: normalizing entities ["Владимир Путин" (politician),
"Zelensky" (politician)] with the single relationship
"Владимир Путин" → "Zelensky" (rival, negative, strength 5) under
englishOnly = true returns exactly the two entities "vladimir putin" and
"volodymyr zelensky" and exactly one relationship between them whose
source_original is "владимир путин". -/
theorem claim_C8_end_to_end_scenario :
    (normalizeNetworkData
      [{ name := js "Владимир Путин", type_ := js "politician", role := [] },
       { name := js "Zelensky", type_ := js "politician", role := [] }]
      [{ source := js "Владимир Путин", target := js "Zelensky",
         type_ := js "rival", sentiment := js "negative", strength := 5,
         description := [] }]
      true).entities.map NormEntity.name
      = [js "vladimir putin", js "volodymyr zelensky"] ∧
    (normalizeNetworkData
      [{ name := js "Владимир Путин", type_ := js "politician", role := [] },
       { name := js "Zelensky", type_ := js "politician", role := [] }]
      [{ source := js "Владимир Путин", target := js "Zelensky",
         type_ := js "rival", sentiment := js "negative", strength := 5,
         description := [] }]
      true).relationships.map
        (fun r => (r.source, r.target, r.source_original))
      = [(js "vladimir putin", js "volodymyr zelensky",
          some (js "владимир путин"))] := by decide

/-! ## Claim C9 -/

/-- Claim C9: parsing the scenario response "Summary: all good" (no other
section headers) yields summary "all good", the empty string for every
other section, and the key-entities and key-relationships line parsers
yield empty lists on those empty sections; the parsers are total, so no
exception is raised. -/
theorem claim_C9_section_parser_robustness :
    parseScenarioResponse (js "Summary: all good")
      = { summary := js "all good", network_impact := [],
          political_outcomes := [], key_entities := [],
          key_relationships := [] } ∧
    parseKeyEntities [] = [] ∧
    parseKeyRelationships [] = [] := by decide

end LeaderSim

namespace LeaderSim

/-! ## String lemmas -/

theorem jsToLowerChar_idem (c : Nat) :
    jsToLowerChar (jsToLowerChar c) = jsToLowerChar c := by
  unfold jsToLowerChar
  split_ifs <;> omega

theorem jsIsWs_toLowerChar (c : Nat) :
    jsIsWs (jsToLowerChar c) = jsIsWs c := by
  unfold jsToLowerChar jsIsWs
  split_ifs <;> simp only [decide_eq_decide] <;> omega

theorem jsToLower_idem (s : JStr) : jsToLower (jsToLower s) = jsToLower s := by
  simp only [jsToLower, List.map_map]
  congr 1
  funext c
  exact jsToLowerChar_idem c

theorem dropWhile_idem (p : Nat → Bool) (l : JStr) :
    (l.dropWhile p).dropWhile p = l.dropWhile p := by
  induction l with
  | nil => rfl
  | cons a t ih =>
    by_cases h : p a
    · simp [List.dropWhile_cons, h, ih]
    · simp [List.dropWhile_cons, h]

theorem head_of_dropWhile_ne (p : Nat → Bool) (l : JStr) (a : Nat)
    (h : (l.dropWhile p).head? = some a) : p a = false := by
  induction l with
  | nil => simp [List.dropWhile] at h
  | cons b t ih =>
    by_cases hb : p b
    · rw [List.dropWhile_cons, if_pos hb] at h
      exact ih h
    · rw [List.dropWhile_cons, if_neg hb] at h
      simp at h
      rw [← h]
      simp [hb]

theorem head_of_prefix {l m : JStr} (h : m <+: l) (a : Nat)
    (hm : m.head? = some a) : l.head? = some a := by
  obtain ⟨t, rfl⟩ := h
  cases m with
  | nil => simp at hm
  | cons b m' =>
    simp at hm
    simp [hm]

theorem jsTrim_idem (s : JStr) : jsTrim (jsTrim s) = jsTrim s := by
  unfold jsTrim
  have hmrev : (((s.dropWhile jsIsWs).reverse.dropWhile jsIsWs).reverse).reverse
      = (s.dropWhile jsIsWs).reverse.dropWhile jsIsWs := List.reverse_reverse _
  have h1 : (((s.dropWhile jsIsWs).reverse.dropWhile jsIsWs).reverse).dropWhile jsIsWs
      = ((s.dropWhile jsIsWs).reverse.dropWhile jsIsWs).reverse := by
    cases hcm : ((s.dropWhile jsIsWs).reverse.dropWhile jsIsWs).reverse with
    | nil => rfl
    | cons a m' =>
      have hpref : ((s.dropWhile jsIsWs).reverse.dropWhile jsIsWs).reverse
          <+: s.dropWhile jsIsWs := by
        rw [← List.reverse_suffix, hmrev]
        exact List.dropWhile_suffix jsIsWs
      have hha : (s.dropWhile jsIsWs).head? = some a :=
        head_of_prefix hpref a (by rw [hcm]; rfl)
      have ha : jsIsWs a = false := head_of_dropWhile_ne jsIsWs s a hha
      simp [List.dropWhile_cons, ha]
  rw [h1, hmrev, dropWhile_idem, ← hmrev, List.reverse_reverse]

theorem jsToLower_jsTrim (s : JStr) :
    jsTrim (jsToLower s) = jsToLower (jsTrim s) := by
  have hpf : (fun c => jsIsWs (jsToLowerChar c)) = jsIsWs := by
    funext c
    exact jsIsWs_toLowerChar c
  have hdw : ∀ l : JStr, List.dropWhile jsIsWs (List.map jsToLowerChar l)
      = List.map jsToLowerChar (List.dropWhile jsIsWs l) := by
    intro l
    rw [List.dropWhile_map]
    simp only [Function.comp_def, hpf]
  simp only [jsTrim, jsToLower]
  rw [hdw, ← List.map_reverse, hdw, ← List.map_reverse]

theorem lowerTrim_idem (s : JStr) : lowerTrim (lowerTrim s) = lowerTrim s := by
  simp only [lowerTrim]
  rw [jsToLower_jsTrim, jsTrim_idem, ← jsToLower_jsTrim, jsToLower_idem]

end LeaderSim

namespace LeaderSim

/-! ## Claim C3 -/

theorem mapGet_mem_values {α : Type} (m : List (JStr × α)) (k : JStr) (v : α)
    (h : mapGet m k = some v) : v ∈ m.map Prod.snd := by
  induction m with
  | nil => simp [mapGet] at h
  | cons p rest ih =>
    rw [mapGet] at h
    split at h
    · simp at h
      simp [← h]
    · simp [ih h]

/-- Every output of `nekCore` is an alias-table value, a heuristic
output, or the input itself. -/
theorem nekCore_mem_or_self (l : JStr) :
    nekCore l ∈ mappingValues ++ heuristicOutputs ∨ nekCore l = l := by
  unfold nekCore
  cases hg : mapGet ENTITY_NAME_MAPPINGS l with
  | some v =>
    left
    exact List.mem_append_left _ (mapGet_mem_values _ _ _ hg)
  | none =>
    split_ifs <;>
      first
        | (left; decide)
        | (right; rfl)

set_option maxRecDepth 40000 in
/-- Every alias-table value and heuristic output is nonempty, fixed under
lowercasing-and-trimming, and its image under `nekCore` is a fixed point
of `nekCore`. -/
theorem values_fix_after :
    ∀ v ∈ mappingValues ++ heuristicOutputs,
      v ≠ [] ∧ lowerTrim v = v ∧ nekCore v ≠ [] ∧
      lowerTrim (nekCore v) = nekCore v ∧ nekCore (nekCore v) = nekCore v := by
  decide

/-- Claim C3, counterexample: normalizeEntityName is not idempotent:
"tramp" maps (via the alias table) to "trump", but "trump" maps (via the
substring heuristic) to "donald trump". -/
theorem claim_C3_counterexample :
    normalizeEntityName (js "tramp") = js "trump" ∧
    normalizeEntityName (normalizeEntityName (js "tramp")) = js "donald trump" ∧
    normalizeEntityName (normalizeEntityName (js "tramp")) ≠
      normalizeEntityName (js "tramp") := by decide

/-- Claim C3 as amended: alias resolution is deterministic but not
idempotent; a second application reaches a fixed point: for every string
`s`, `normalizeEntityName` applied three times agrees with
`normalizeEntityName` applied twice. -/
theorem claim_C3_amended_double_application_stable (s : JStr) :
    normalizeEntityName (normalizeEntityName (normalizeEntityName s)) =
      normalizeEntityName (normalizeEntityName s) := by
  by_cases hs : s = []
  · subst hs
    rfl
  · have hr : normalizeEntityName s = nekCore (lowerTrim s) := by
      simp [normalizeEntityName, hs]
    rcases nekCore_mem_or_self (lowerTrim s) with hmem | hself
    · obtain ⟨hv1, hv2, hv3, hv4, hv5⟩ := values_fix_after _ hmem
      have hfr : normalizeEntityName (normalizeEntityName s)
          = nekCore (nekCore (lowerTrim s)) := by
        rw [hr, normalizeEntityName, if_neg hv1, hv2]
      rw [hfr, normalizeEntityName, if_neg hv3, hv4, hv5]
    · -- the lookup and all heuristics missed: the result is the
      -- lowercased-trimmed input itself, which is a fixed point
      by_cases hl : lowerTrim s = []
      · rw [hr, hself, hl]
        rfl
      · have hfix : normalizeEntityName (lowerTrim s) = lowerTrim s := by
          rw [normalizeEntityName, if_neg hl, lowerTrim_idem, hself]
        rw [hr, hself, hfix, hfix]
end LeaderSim

namespace LeaderSim

/-! ## Map, set and fold lemmas -/

theorem mapGet_mapSet_self {α : Type} (m : List (JStr × α)) (k : JStr) (v : α) :
    mapGet (mapSet m k v) k = some v := by
  induction m with
  | nil => simp [mapSet, mapGet]
  | cons p rest ih =>
    obtain ⟨pk, pv⟩ := p
    by_cases h : pk = k
    · simp [mapSet, h, mapGet]
    · simp [mapSet, h, mapGet, ih]

theorem mapGet_mapSet_ne {α : Type} (m : List (JStr × α)) (k k' : JStr) (v : α)
    (h : k' ≠ k) : mapGet (mapSet m k v) k' = mapGet m k' := by
  have hkk : ¬ k = k' := fun hh => h hh.symm
  induction m with
  | nil =>
    show mapGet [(k, v)] k' = mapGet [] k'
    simp [mapGet, hkk]
  | cons p rest ih =>
    obtain ⟨pk, pv⟩ := p
    by_cases hp : pk = k
    · subst hp
      have hms : mapSet ((pk, pv) :: rest) pk v = (pk, v) :: rest := by
        simp [mapSet]
      rw [hms]
      simp only [mapGet, if_neg hkk]
    · have hms : mapSet ((pk, pv) :: rest) k v = (pk, pv) :: mapSet rest k v := by
        simp [mapSet, hp]
      rw [hms]
      by_cases hpk' : pk = k'
      · simp only [mapGet, if_pos hpk']
      · simp only [mapGet, if_neg hpk', ih]

theorem mem_keys_mapSet {α : Type} (m : List (JStr × α)) (k k' : JStr) (v : α) :
    k' ∈ keysOf (mapSet m k v) ↔ k' ∈ keysOf m ∨ k' = k := by
  induction m with
  | nil => simp [mapSet, keysOf]
  | cons p rest ih =>
    obtain ⟨pk, pv⟩ := p
    by_cases h : pk = k
    · subst h
      have hms : mapSet ((pk, pv) :: rest) pk v = (pk, v) :: rest := by
        simp [mapSet]
      rw [hms]
      simp only [keysOf, List.map_cons, List.mem_cons]
      tauto
    · have hms : mapSet ((pk, pv) :: rest) k v = (pk, pv) :: mapSet rest k v := by
        simp [mapSet, h]
      rw [hms]
      simp only [keysOf, List.map_cons, List.mem_cons]
      simp only [keysOf] at ih
      rw [ih]
      tauto

theorem mapGet_isSome_iff {α : Type} (m : List (JStr × α)) (k : JStr) :
    (mapGet m k).isSome = true ↔ k ∈ keysOf m := by
  induction m with
  | nil => simp [mapGet, keysOf]
  | cons p rest ih =>
    obtain ⟨pk, pv⟩ := p
    by_cases h : pk = k
    · simp [mapGet, h, keysOf]
    · rw [mapGet, if_neg h, keysOf, List.map_cons, List.mem_cons]
      rw [keysOf] at ih
      rw [ih]
      constructor
      · exact Or.inr
      · rintro (rfl | hh)
        · exact absurd rfl h
        · exact hh

theorem mapHas_iff {α : Type} (m : List (JStr × α)) (k : JStr) :
    mapHas m k = true ↔ k ∈ keysOf m := by
  rw [mapHas, mapGet_isSome_iff]

theorem mem_of_mapGet_eq_some {α : Type} {m : List (JStr × α)} {k : JStr}
    {v : α} (h : mapGet m k = some v) : (k, v) ∈ m := by
  induction m with
  | nil => simp [mapGet] at h
  | cons p rest ih =>
    obtain ⟨pk, pv⟩ := p
    rw [mapGet] at h
    split at h
    · rename_i heq
      simp only [Option.some.injEq] at h
      subst heq
      subst h
      exact List.mem_cons_self _ _
    · exact List.mem_cons_of_mem _ (ih h)

theorem forall_mapSet {α : Type} (P : JStr × α → Prop) (m : List (JStr × α))
    (k : JStr) (v : α) (hm : ∀ p ∈ m, P p) (hkv : P (k, v)) :
    ∀ p ∈ mapSet m k v, P p := by
  induction m with
  | nil => simpa [mapSet]
  | cons q rest ih =>
    obtain ⟨qk, qv⟩ := q
    by_cases h : qk = k
    · rw [mapSet, if_pos h]
      intro p hp
      rcases List.mem_cons.mp hp with rfl | hp
      · exact hkv
      · exact hm p (List.mem_cons_of_mem _ hp)
    · rw [mapSet, if_neg h]
      intro p hp
      rcases List.mem_cons.mp hp with rfl | hp
      · exact hm _ (List.mem_cons_self _ _)
      · exact ih (fun q hq => hm q (List.mem_cons_of_mem _ hq)) p hp

theorem nodupKeys_mapSet {α : Type} (m : List (JStr × α)) (k : JStr) (v : α)
    (h : (keysOf m).Nodup) : (keysOf (mapSet m k v)).Nodup := by
  induction m with
  | nil => simp [mapSet, keysOf]
  | cons p rest ih =>
    obtain ⟨pk, pv⟩ := p
    by_cases hp : pk = k
    · subst hp
      simpa [mapSet, keysOf] using h
    · rw [keysOf, List.map_cons, List.nodup_cons] at h
      rw [mapSet, if_neg hp, keysOf, List.map_cons, List.nodup_cons]
      refine ⟨fun hc => ?_, ih h.2⟩
      rw [show (mapSet rest k v).map Prod.fst = keysOf (mapSet rest k v) from rfl,
        mem_keys_mapSet] at hc
      rcases hc with hc | hc
      · exact h.1 hc
      · exact hp hc

theorem mem_setAdd (s : List JStr) (k x : JStr) :
    x ∈ setAdd s k ↔ x ∈ s ∨ x = k := by
  by_cases h : k ∈ s
  · simp only [setAdd, if_pos h]
    constructor
    · exact Or.inl
    · rintro (hx | rfl) <;> assumption
  · simp [setAdd, if_neg h]

theorem subset_setAdd (s : List JStr) (k : JStr) : s ⊆ setAdd s k := by
  intro x hx
  rw [mem_setAdd]
  exact Or.inl hx

theorem mem_jsDedup_aux (l : List JStr) :
    ∀ acc x, x ∈ l.foldl setAdd acc ↔ x ∈ acc ∨ x ∈ l := by
  induction l with
  | nil => simp
  | cons a t ih =>
    intro acc x
    rw [List.foldl_cons, ih, mem_setAdd]
    simp
    tauto

theorem mem_jsDedup (l : List JStr) (x : JStr) : x ∈ jsDedup l ↔ x ∈ l := by
  rw [jsDedup, mem_jsDedup_aux]
  simp

/-- Preserving an invariant through a left fold. -/
theorem foldl_inv {σ α : Type} (f : σ → α → σ) (Inv : σ → Prop)
    (hstep : ∀ st x, Inv st → Inv (f st x)) :
    ∀ (l : List α) (st : σ), Inv st → Inv (List.foldl f st l) := by
  intro l
  induction l with
  | nil => exact fun st h => h
  | cons a t ih => exact fun st h => ih (f st a) (hstep st a h)

/-- Establishing a per-element property through a left fold: each element
establishes its property at its own step, and every step preserves it. -/
theorem foldl_mem {σ α : Type} (f : σ → α → σ) (Q : α → σ → Prop)
    (hstep : ∀ st x, Q x (f st x)) (hpres : ∀ st x y, Q x st → Q x (f st y)) :
    ∀ (l : List α) (st : σ) (x : α), x ∈ l → Q x (List.foldl f st l) := by
  intro l
  induction l with
  | nil => simp
  | cons a t ih =>
    intro st x hx
    rcases List.mem_cons.mp hx with rfl | hx
    · rw [List.foldl_cons]
      exact foldl_inv f (Q x) (fun st' y hq => hpres st' x y hq) t (f st x)
        (hstep st x)
    · exact ih (f st a) x hx

end LeaderSim

namespace LeaderSim

/-! ## Step 1 invariants -/

theorem pass1Entity_nil {st : List (JStr × JStr) × List JStr} {e : RawEntity}
    (h : e.name = []) : pass1Entity st e = st := by
  simp [pass1Entity, h]

theorem pass1Entity_cons {st : List (JStr × JStr) × List JStr} {e : RawEntity}
    (h : ¬ e.name = []) :
    pass1Entity st e =
      (mapSet
        (mapSet st.1 (lowerTrim e.name) (normalizeEntityName (lowerTrim e.name)))
        (normalizeEntityName (lowerTrim e.name))
        (normalizeEntityName (lowerTrim e.name)),
       if isLikelyEnglish (lowerTrim e.name) then st.2
       else setAdd st.2 (lowerTrim e.name)) := by
  simp [pass1Entity, h]

theorem pass1RelSide_skip {st : List (JStr × JStr) × List JStr} {s : JStr}
    (h : ¬ (s ≠ [] ∧ ¬ mapHas st.1 s = true)) : pass1RelSide st s = st := by
  simp only [pass1RelSide, ne_eq]
  rw [if_neg]
  simpa using h

theorem pass1RelSide_add {st : List (JStr × JStr) × List JStr} {s : JStr}
    (h : s ≠ [] ∧ ¬ mapHas st.1 s = true) :
    pass1RelSide st s =
      (mapSet (mapSet st.1 s (normalizeEntityName s)) (normalizeEntityName s)
        (normalizeEntityName s),
       if isLikelyEnglish s then st.2 else setAdd st.2 s) := by
  simp only [pass1RelSide, ne_eq]
  rw [if_pos]
  simpa using h

theorem keys_mono_pass1Entity (st : List (JStr × JStr) × List JStr)
    (e : RawEntity) (k : JStr) (h : k ∈ keysOf st.1) :
    k ∈ keysOf (pass1Entity st e).1 := by
  by_cases hn : e.name = []
  · rw [pass1Entity_nil hn]
    exact h
  · rw [pass1Entity_cons hn]
    rw [mem_keys_mapSet, mem_keys_mapSet]
    exact Or.inl (Or.inl h)

theorem keys_mono_pass1RelSide (st : List (JStr × JStr) × List JStr)
    (s : JStr) (k : JStr) (h : k ∈ keysOf st.1) :
    k ∈ keysOf (pass1RelSide st s).1 := by
  by_cases hc : s ≠ [] ∧ ¬ mapHas st.1 s = true
  · rw [pass1RelSide_add hc]
    rw [mem_keys_mapSet, mem_keys_mapSet]
    exact Or.inl (Or.inl h)
  · rw [pass1RelSide_skip hc]
    exact h

theorem keys_mono_pass1Rel (st : List (JStr × JStr) × List JStr)
    (r : RawRel) (k : JStr) (h : k ∈ keysOf st.1) :
    k ∈ keysOf (pass1Rel st r).1 :=
  keys_mono_pass1RelSide _ _ _ (keys_mono_pass1RelSide _ _ _ h)

/-- Every nonempty raw entity name is a key of the entity map. -/
theorem pass1_entity_key (es : List RawEntity) (rs : List RawRel)
    (e : RawEntity) (he : e ∈ es) (hn : e.name ≠ []) :
    lowerTrim e.name ∈ keysOf (pass1 es rs).1 := by
  have base : lowerTrim e.name ∈ keysOf (es.foldl pass1Entity ([], [])).1 := by
    refine foldl_mem pass1Entity
      (fun e' st => e'.name ≠ [] → lowerTrim e'.name ∈ keysOf st.1)
      (fun st x hx => ?_) (fun st x y hq hx => ?_) es ([], []) e he hn
    · rw [pass1Entity_cons hx, mem_keys_mapSet, mem_keys_mapSet]
      exact Or.inl (Or.inr rfl)
    · exact keys_mono_pass1Entity st y _ (hq hx)
  exact foldl_inv pass1Rel (fun st => lowerTrim e.name ∈ keysOf st.1)
    (fun st r h => keys_mono_pass1Rel st r _ h) rs _ base

theorem pass1RelSide_key (st : List (JStr × JStr) × List JStr) (s : JStr)
    (hs : s ≠ []) : s ∈ keysOf (pass1RelSide st s).1 := by
  by_cases hc : s ≠ [] ∧ ¬ mapHas st.1 s = true
  · rw [pass1RelSide_add hc, mem_keys_mapSet, mem_keys_mapSet]
    exact Or.inl (Or.inr rfl)
  · rw [pass1RelSide_skip hc]
    rw [Classical.not_and_iff_or_not_not] at hc
    rcases hc with hc | hc
    · exact absurd hs hc
    · rw [Classical.not_not] at hc
      exact (mapHas_iff _ _).mp hc

/-- Every nonempty relationship endpoint is a key of the entity map. -/
theorem pass1_rel_key (es : List RawEntity) (rs : List RawRel)
    (r : RawRel) (hr : r ∈ rs) :
    (lowerTrim r.source ≠ [] → lowerTrim r.source ∈ keysOf (pass1 es rs).1) ∧
    (lowerTrim r.target ≠ [] → lowerTrim r.target ∈ keysOf (pass1 es rs).1) := by
  refine foldl_mem pass1Rel
    (fun r' st =>
      (lowerTrim r'.source ≠ [] → lowerTrim r'.source ∈ keysOf st.1) ∧
      (lowerTrim r'.target ≠ [] → lowerTrim r'.target ∈ keysOf st.1))
    (fun st x => ?_) (fun st x y hq => ?_) rs _ r hr
  · constructor
    · intro hs
      exact keys_mono_pass1RelSide _ _ _ (pass1RelSide_key st _ hs)
    · intro ht
      exact pass1RelSide_key _ _ ht
  · exact ⟨fun hs => keys_mono_pass1Rel _ _ _ (hq.1 hs),
      fun ht => keys_mono_pass1Rel _ _ _ (hq.2 ht)⟩

end LeaderSim

namespace LeaderSim

/-- Alias-table values and heuristic outputs are nonempty and classified
as likely English. -/
theorem values_props :
    ∀ v ∈ mappingValues ++ heuristicOutputs,
      v ≠ [] ∧ isLikelyEnglish v = true := by decide

theorem nek_cases_of_trimFixed (o : JStr) (ho : lowerTrim o = o) :
    normalizeEntityName o ∈ mappingValues ++ heuristicOutputs ∨
      normalizeEntityName o = o := by
  by_cases h : o = []
  · subst h
    right
    rfl
  · rw [normalizeEntityName, if_neg h, ho]
    exact nekCore_mem_or_self o

theorem engInv_insert (st : List (JStr × JStr) × List JStr) (o : JStr)
    (ho : lowerTrim o = o) (hinv : engInv st) :
    engInv (mapSet (mapSet st.1 o (normalizeEntityName o))
      (normalizeEntityName o) (normalizeEntityName o),
      if isLikelyEnglish o then st.2 else setAdd st.2 o) := by
  intro k hk
  rw [mem_keys_mapSet, mem_keys_mapSet] at hk
  have hneg : ∀ x, x ∈ st.2 → x ∈ (if isLikelyEnglish o then st.2
      else setAdd st.2 o) := by
    intro x hx
    split
    · exact hx
    · exact subset_setAdd _ _ hx
  have hocase : o ∈ (if isLikelyEnglish o then st.2 else setAdd st.2 o) ∨
      isLikelyEnglish o = true := by
    by_cases he : isLikelyEnglish o = true
    · exact Or.inr he
    · left
      rw [if_neg he, mem_setAdd]
      exact Or.inr rfl
  rcases hk with (hk | rfl) | rfl
  · rcases hinv k hk with hin | hin
    · exact Or.inl (hneg k hin)
    · exact Or.inr hin
  · exact hocase
  · rcases nek_cases_of_trimFixed o ho with hm | hm
    · exact Or.inr (values_props _ hm).2
    · rw [hm]
      exact hocase

theorem engInv_pass1Entity (st : List (JStr × JStr) × List JStr)
    (e : RawEntity) (hinv : engInv st) : engInv (pass1Entity st e) := by
  by_cases hn : e.name = []
  · rw [pass1Entity_nil hn]
    exact hinv
  · rw [pass1Entity_cons hn]
    exact engInv_insert st _ (lowerTrim_idem e.name) hinv

theorem engInv_pass1RelSide (st : List (JStr × JStr) × List JStr) (s : JStr)
    (hs : lowerTrim s = s) (hinv : engInv st) :
    engInv (pass1RelSide st s) := by
  by_cases hc : s ≠ [] ∧ ¬ mapHas st.1 s = true
  · rw [pass1RelSide_add hc]
    exact engInv_insert st s hs hinv
  · rw [pass1RelSide_skip hc]
    exact hinv

/-- The key/English invariant holds of the completed step 1. -/
theorem pass1_engInv (es : List RawEntity) (rs : List RawRel) :
    engInv (pass1 es rs) := by
  refine foldl_inv pass1Rel engInv (fun st r h => ?_) rs _
    (foldl_inv pass1Entity engInv (fun st e h => engInv_pass1Entity st e h)
      es ([], []) ?_)
  · exact engInv_pass1RelSide _ _ (lowerTrim_idem r.target)
      (engInv_pass1RelSide _ _ (lowerTrim_idem r.source) h)
  · intro k hk
    simp [keysOf] at hk

theorem nek_ne_nil_of_trimFixed (o : JStr) (ho : lowerTrim o = o)
    (hne : o ≠ []) : normalizeEntityName o ≠ [] := by
  rcases nek_cases_of_trimFixed o ho with hm | hm
  · exact (values_props _ hm).1
  · rw [hm]
    exact hne

theorem valInv_insert (st : List (JStr × JStr) × List JStr) (o : JStr)
    (ho : lowerTrim o = o) (hinv : valInv st) (ne2 : List JStr) :
    valInv (mapSet (mapSet st.1 o (normalizeEntityName o))
      (normalizeEntityName o) (normalizeEntityName o), ne2) := by
  intro p hp
  refine forall_mapSet (fun q => q.1 ≠ [] → q.2 ≠ []) _ _ _
    (forall_mapSet _ _ _ _ hinv ?_) ?_ p hp
  · intro ho'
    exact nek_ne_nil_of_trimFixed o ho ho'
  · intro h
    exact h

theorem valInv_pass1 (es : List RawEntity) (rs : List RawRel) :
    valInv (pass1 es rs) := by
  have hstepE : ∀ st e, valInv st → valInv (pass1Entity st e) := by
    intro st e h
    by_cases hn : e.name = []
    · rw [pass1Entity_nil hn]
      exact h
    · rw [pass1Entity_cons hn]
      exact valInv_insert st _ (lowerTrim_idem e.name) h _
  have hstepS : ∀ st s, lowerTrim s = s → valInv st →
      valInv (pass1RelSide st s) := by
    intro st s hs h
    by_cases hc : s ≠ [] ∧ ¬ mapHas st.1 s = true
    · rw [pass1RelSide_add hc]
      exact valInv_insert st s hs h _
    · rw [pass1RelSide_skip hc]
      exact h
  refine foldl_inv pass1Rel valInv (fun st r h => ?_) rs _
    (foldl_inv pass1Entity valInv hstepE es ([], []) ?_)
  · exact hstepS _ _ (lowerTrim_idem r.target)
      (hstepS _ _ (lowerTrim_idem r.source) h)
  · intro p hp
    simp at hp

/-- A successful lookup at a nonempty key returns a nonempty canonical
name. -/
theorem pass1_get_ne_nil (es : List RawEntity) (rs : List RawRel)
    (k v : JStr) (hk : k ≠ []) (h : mapGet (pass1 es rs).1 k = some v) :
    v ≠ [] :=
  valInv_pass1 es rs (k, v) (mem_of_mapGet_eq_some h) hk

end LeaderSim

namespace LeaderSim

/-! ## Step 2/3 shape lemmas and invariants -/

/-- step2Entity either leaves the map unchanged or writes a record at the
canonical key that the entity map designates. -/
theorem step2Entity_shape (em : List (JStr × JStr)) (neg : List JStr)
    (eo : Bool) (nem : List (JStr × NormEntity)) (e : RawEntity) :
    step2Entity em neg eo nem e = nem ∨
    ∃ n, mapGet em (lowerTrim e.name) = some n ∧ e.name ≠ [] ∧
      (eo = true → lowerTrim e.name ∉ neg) ∧
      ((∃ ex, mapGet nem n = some ex ∧
        step2Entity em neg eo nem e = mapSet nem n
          { ex with original_names :=
              jsDedup (ex.original_names ++ [lowerTrim e.name]) }) ∨
       (mapGet nem n = none ∧
        step2Entity em neg eo nem e = mapSet nem n
          { name := n, type_ := e.type_, role := e.role,
            original_names := [lowerTrim e.name] })) := by
  by_cases h1 : e.name = []
  · left
    simp [step2Entity, h1]
  · cases hg : mapGet em (lowerTrim e.name) with
    | none =>
      left
      simp [step2Entity, h1, hg]
    | some n =>
      by_cases h2 : eo = true ∧ lowerTrim e.name ∈ neg
      · left
        simp only [step2Entity, if_neg h1, hg]
        rw [if_pos]
        exact h2
      · have h2' : eo = true → lowerTrim e.name ∉ neg := by
          intro ha hb
          exact h2 ⟨ha, hb⟩
        cases hx : mapGet nem n with
        | some ex =>
          right
          refine ⟨n, rfl, h1, h2', Or.inl ⟨ex, hx, ?_⟩⟩
          simp only [step2Entity, if_neg h1, hg]
          rw [if_neg h2]
          simp [hx]
        | none =>
          right
          refine ⟨n, rfl, h1, h2', Or.inr ⟨hx, ?_⟩⟩
          simp only [step2Entity, if_neg h1, hg]
          rw [if_neg h2]
          simp [hx]

/-- step3AddSide either leaves the map unchanged or creates a default
record at the canonical key. -/
theorem step3AddSide_shape (em : List (JStr × JStr))
    (nem : List (JStr × NormEntity)) (original : JStr) :
    step3AddSide em nem original = nem ∨
    ∃ c, mapGet em original = some c ∧ mapGet nem c = none ∧
      step3AddSide em nem original = mapSet nem c
        { name := c, type_ := js "person", role := js "Unknown",
          original_names := [original] } := by
  cases hg : mapGet em original with
  | none =>
    left
    simp [step3AddSide, hg]
  | some c =>
    cases hx : mapGet nem c with
    | some ex =>
      left
      simp [step3AddSide, hg, mapHas, hx]
    | none =>
      right
      exact ⟨c, rfl, hx, by simp [step3AddSide, hg, mapHas, hx]⟩

theorem step3Rel_shape (em : List (JStr × JStr)) (neg : List JStr)
    (eo : Bool) (nem : List (JStr × NormEntity)) (r : RawRel) :
    step3Rel em neg eo nem r = nem ∨
    (lowerTrim r.source ≠ [] ∧ lowerTrim r.target ≠ [] ∧
     ¬ (eo = true ∧ (lowerTrim r.source ∈ neg ∨ lowerTrim r.target ∈ neg)) ∧
     step3Rel em neg eo nem r =
       step3AddSide em (step3AddSide em nem (lowerTrim r.source))
         (lowerTrim r.target)) := by
  simp only [step3Rel]
  split_ifs with h1 h2
  · left; rfl
  · left; rfl
  · right
    exact ⟨fun h => h1 (Or.inl h), fun h => h1 (Or.inr h), h2, rfl⟩

theorem keys_mono_step3AddSide (em : List (JStr × JStr))
    (nem : List (JStr × NormEntity)) (o k : JStr) (h : k ∈ keysOf nem) :
    k ∈ keysOf (step3AddSide em nem o) := by
  rcases step3AddSide_shape em nem o with hs | ⟨c, _, _, hs⟩
  · rw [hs]; exact h
  · rw [hs, mem_keys_mapSet]; exact Or.inl h

theorem keys_mono_step2Entity (em : List (JStr × JStr)) (neg : List JStr)
    (eo : Bool) (nem : List (JStr × NormEntity)) (e : RawEntity) (k : JStr)
    (h : k ∈ keysOf nem) : k ∈ keysOf (step2Entity em neg eo nem e) := by
  rcases step2Entity_shape em neg eo nem e with hs | ⟨n, _, _, _, hcase⟩
  · rw [hs]; exact h
  · rcases hcase with ⟨ex, _, hs⟩ | ⟨_, hs⟩ <;>
      (rw [hs, mem_keys_mapSet]; exact Or.inl h)

theorem keys_mono_step3Rel (em : List (JStr × JStr)) (neg : List JStr)
    (eo : Bool) (nem : List (JStr × NormEntity)) (r : RawRel) (k : JStr)
    (h : k ∈ keysOf nem) : k ∈ keysOf (step3Rel em neg eo nem r) := by
  rcases step3Rel_shape em neg eo nem r with hs | ⟨_, _, _, hs⟩ <;> rw [hs]
  · exact h
  · exact keys_mono_step3AddSide _ _ _ _ (keys_mono_step3AddSide _ _ _ _ h)

theorem nameInv_step2 (em : List (JStr × JStr)) (neg : List JStr) (eo : Bool)
    (nem : List (JStr × NormEntity)) (e : RawEntity) (h : nameInv nem) :
    nameInv (step2Entity em neg eo nem e) := by
  rcases step2Entity_shape em neg eo nem e with hs | ⟨n, _, _, _, hcase⟩
  · rw [hs]; exact h
  · rcases hcase with ⟨ex, hx, hs⟩ | ⟨_, hs⟩ <;> rw [hs]
    · exact forall_mapSet _ _ _ _ h (h (n, ex) (mem_of_mapGet_eq_some hx))
    · exact forall_mapSet _ _ _ _ h rfl

theorem nameInv_step3AddSide (em : List (JStr × JStr))
    (nem : List (JStr × NormEntity)) (o : JStr) (h : nameInv nem) :
    nameInv (step3AddSide em nem o) := by
  rcases step3AddSide_shape em nem o with hs | ⟨c, _, _, hs⟩ <;> rw [hs]
  · exact h
  · exact forall_mapSet _ _ _ _ h rfl

theorem nameInv_step3Rel (em : List (JStr × JStr)) (neg : List JStr)
    (eo : Bool) (nem : List (JStr × NormEntity)) (r : RawRel)
    (h : nameInv nem) : nameInv (step3Rel em neg eo nem r) := by
  rcases step3Rel_shape em neg eo nem r with hs | ⟨_, _, _, hs⟩ <;> rw [hs]
  · exact h
  · exact nameInv_step3AddSide _ _ _ (nameInv_step3AddSide _ _ _ h)

/-- The materialized entity map stores every record under its own name. -/
theorem nameInv_materialize (es : List RawEntity) (rs : List RawRel)
    (em : List (JStr × JStr)) (neg : List JStr) (eo : Bool) :
    nameInv (materialize es rs em neg eo) := by
  refine foldl_inv (step3Rel em neg eo) nameInv
    (fun st r h => nameInv_step3Rel em neg eo st r h) rs _
    (foldl_inv (step2Entity em neg eo) nameInv
      (fun st e h => nameInv_step2 em neg eo st e h) es [] ?_)
  intro p hp
  simp at hp

/-- The materialized entity map has no duplicate keys. -/
theorem nodup_materialize (es : List RawEntity) (rs : List RawRel)
    (em : List (JStr × JStr)) (neg : List JStr) (eo : Bool) :
    (keysOf (materialize es rs em neg eo)).Nodup := by
  have h2 : ∀ (st : List (JStr × NormEntity)) e, (keysOf st).Nodup →
      (keysOf (step2Entity em neg eo st e)).Nodup := by
    intro st e h
    rcases step2Entity_shape em neg eo st e with hs | ⟨n, _, _, _, hcase⟩
    · rw [hs]; exact h
    · rcases hcase with ⟨ex, _, hs⟩ | ⟨_, hs⟩ <;> rw [hs] <;>
        exact nodupKeys_mapSet _ _ _ h
  have h3s : ∀ (st : List (JStr × NormEntity)) o, (keysOf st).Nodup →
      (keysOf (step3AddSide em st o)).Nodup := by
    intro st o h
    rcases step3AddSide_shape em st o with hs | ⟨c, _, _, hs⟩ <;> rw [hs]
    · exact h
    · exact nodupKeys_mapSet _ _ _ h
  refine foldl_inv (step3Rel em neg eo) (fun st => (keysOf st).Nodup)
    (fun st r h => ?_) rs _
    (foldl_inv (step2Entity em neg eo) _ h2 es [] (by simp [keysOf]))
  rcases step3Rel_shape em neg eo st r with hs | ⟨_, _, _, hs⟩ <;> rw [hs]
  · exact h
  · exact h3s _ _ (h3s _ _ h)

end LeaderSim

namespace LeaderSim

/-! ## Materialization lemmas for endpoint entities -/

theorem step3Rel_go (em : List (JStr × JStr)) (neg : List JStr) (eo : Bool)
    (nem : List (JStr × NormEntity)) (r : RawRel)
    (hso : lowerTrim r.source ≠ []) (hto : lowerTrim r.target ≠ [])
    (hskip : ¬ (eo = true ∧
      (lowerTrim r.source ∈ neg ∨ lowerTrim r.target ∈ neg))) :
    step3Rel em neg eo nem r =
      step3AddSide em (step3AddSide em nem (lowerTrim r.source))
        (lowerTrim r.target) := by
  simp only [step3Rel]
  rw [if_neg (by
    intro h
    rcases h with h | h
    · exact hso h
    · exact hto h), if_neg hskip]

theorem step3AddSide_key (em : List (JStr × JStr))
    (nem : List (JStr × NormEntity)) (o c : JStr)
    (hg : mapGet em o = some c) : c ∈ keysOf (step3AddSide em nem o) := by
  simp only [step3AddSide, hg]
  by_cases h : mapHas nem c = true
  · rw [if_pos h]
    exact (mapHas_iff _ _).mp h
  · rw [if_neg h, mem_keys_mapSet]
    exact Or.inr rfl

/-- Both canonical endpoints of a relationship that survives the empty
and English guards are keys of the materialized entity map. -/
theorem materialize_rel_key (es : List RawEntity) (rs : List RawRel)
    (em : List (JStr × JStr)) (neg : List JStr) (eo : Bool) (r : RawRel)
    (hr : r ∈ rs) (hso : lowerTrim r.source ≠ [])
    (hto : lowerTrim r.target ≠ [])
    (hskip : ¬ (eo = true ∧
      (lowerTrim r.source ∈ neg ∨ lowerTrim r.target ∈ neg))) :
    (∀ c, mapGet em (lowerTrim r.source) = some c →
      c ∈ keysOf (materialize es rs em neg eo)) ∧
    (∀ c, mapGet em (lowerTrim r.target) = some c →
      c ∈ keysOf (materialize es rs em neg eo)) := by
  have h := foldl_mem (step3Rel em neg eo)
    (fun r' nem => lowerTrim r'.source ≠ [] → lowerTrim r'.target ≠ [] →
      ¬ (eo = true ∧
        (lowerTrim r'.source ∈ neg ∨ lowerTrim r'.target ∈ neg)) →
      (∀ c, mapGet em (lowerTrim r'.source) = some c → c ∈ keysOf nem) ∧
      (∀ c, mapGet em (lowerTrim r'.target) = some c → c ∈ keysOf nem))
    (fun st x hx1 hx2 hx3 => ?_) (fun st x y hq hx1 hx2 hx3 => ?_)
    rs (es.foldl (step2Entity em neg eo) []) r hr
  · exact h hso hto hskip
  · rw [step3Rel_go em neg eo st x hx1 hx2 hx3]
    constructor
    · intro c hc
      exact keys_mono_step3AddSide _ _ _ _ (step3AddSide_key _ _ _ _ hc)
    · intro c hc
      exact step3AddSide_key _ _ _ _ hc
  · rcases hq hx1 hx2 hx3 with ⟨q1, q2⟩
    exact ⟨fun c hc => keys_mono_step3Rel _ _ _ _ _ _ (q1 c hc),
      fun c hc => keys_mono_step3Rel _ _ _ _ _ _ (q2 c hc)⟩

/-! ## The original-names invariant (for the English filter) -/

theorem onsInv_step2 (em : List (JStr × JStr)) (neg : List JStr) (eo : Bool)
    (nem : List (JStr × NormEntity)) (e : RawEntity)
    (h : onsInv em neg eo nem) : onsInv em neg eo (step2Entity em neg eo nem e) := by
  rcases step2Entity_shape em neg eo nem e with hs | ⟨n, hg, _, heng, hcase⟩
  · rw [hs]
    exact h
  · have hokey : lowerTrim e.name ∈ keysOf em := by
      rw [← mapGet_isSome_iff, hg]
      rfl
    rcases hcase with ⟨ex, hx, hs⟩ | ⟨_, hs⟩ <;> rw [hs]
    · refine forall_mapSet _ _ _ _ h ?_
      intro nm hnm
      simp only at hnm
      rw [mem_jsDedup, List.mem_append] at hnm
      rcases hnm with hnm | hnm
      · exact h (n, ex) (mem_of_mapGet_eq_some hx) nm hnm
      · rw [List.mem_singleton] at hnm
        subst hnm
        exact ⟨hokey, heng⟩
    · refine forall_mapSet _ _ _ _ h ?_
      intro nm hnm
      simp only at hnm
      rw [List.mem_singleton] at hnm
      subst hnm
      exact ⟨hokey, heng⟩

theorem onsInv_step3AddSide (em : List (JStr × JStr)) (neg : List JStr)
    (eo : Bool) (nem : List (JStr × NormEntity)) (o : JStr)
    (heng : eo = true → o ∉ neg) (h : onsInv em neg eo nem) :
    onsInv em neg eo (step3AddSide em nem o) := by
  rcases step3AddSide_shape em nem o with hs | ⟨c, hg, _, hs⟩ <;> rw [hs]
  · exact h
  · refine forall_mapSet _ _ _ _ h ?_
    intro nm hnm
    simp only at hnm
    rw [List.mem_singleton] at hnm
    subst hnm
    refine ⟨?_, heng⟩
    rw [← mapGet_isSome_iff, hg]
    rfl

theorem onsInv_step3Rel (em : List (JStr × JStr)) (neg : List JStr)
    (eo : Bool) (nem : List (JStr × NormEntity)) (r : RawRel)
    (h : onsInv em neg eo nem) : onsInv em neg eo (step3Rel em neg eo nem r) := by
  rcases step3Rel_shape em neg eo nem r with hs | ⟨_, _, hskip, hs⟩ <;> rw [hs]
  · exact h
  · refine onsInv_step3AddSide _ _ _ _ _ (fun he hmem => ?_)
      (onsInv_step3AddSide _ _ _ _ _ (fun he hmem => ?_) h)
    · exact hskip ⟨he, Or.inr hmem⟩
    · exact hskip ⟨he, Or.inl hmem⟩

theorem onsInv_materialize (es : List RawEntity) (rs : List RawRel)
    (em : List (JStr × JStr)) (neg : List JStr) (eo : Bool) :
    onsInv em neg eo (materialize es rs em neg eo) := by
  refine foldl_inv (step3Rel em neg eo) (onsInv em neg eo)
    (fun st r h => onsInv_step3Rel em neg eo st r h) rs _
    (foldl_inv (step2Entity em neg eo) (onsInv em neg eo)
      (fun st e h => onsInv_step2 em neg eo st e h) es [] ?_)
  intro p hp
  simp at hp

end LeaderSim

namespace LeaderSim

/-! ## Record-preservation through later steps (for merge correctness) -/

theorem presMap_refl (m : List (JStr × NormEntity)) : presMap m m :=
  fun c v h => ⟨v, h, rfl, fun _ hnm => hnm⟩

theorem presMap_trans {m₁ m₂ m₃ : List (JStr × NormEntity)}
    (h12 : presMap m₁ m₂) (h23 : presMap m₂ m₃) : presMap m₁ m₃ := by
  intro c v h
  obtain ⟨v', hg', hn', ho'⟩ := h12 c v h
  obtain ⟨v'', hg'', hn'', ho''⟩ := h23 c v' hg'
  exact ⟨v'', hg'', hn''.trans hn', fun nm hnm => ho'' nm (ho' nm hnm)⟩

theorem presMap_step2 (em : List (JStr × JStr)) (neg : List JStr) (eo : Bool)
    (nem : List (JStr × NormEntity)) (e : RawEntity) :
    presMap nem (step2Entity em neg eo nem e) := by
  rcases step2Entity_shape em neg eo nem e with hs | ⟨n, _, _, _, hcase⟩
  · rw [hs]
    exact presMap_refl nem
  · rcases hcase with ⟨ex, hx, hs⟩ | ⟨hx, hs⟩ <;> rw [hs] <;> intro c v h
    · by_cases hc : c = n
      · subst hc
        rw [hx] at h
        injection h with h
        subst h
        refine ⟨_, mapGet_mapSet_self _ _ _, rfl, ?_⟩
        intro nm hnm
        simp only
        rw [mem_jsDedup, List.mem_append]
        exact Or.inl hnm
      · rw [mapGet_mapSet_ne _ _ _ _ hc]
        exact ⟨v, h, rfl, fun _ hnm => hnm⟩
    · by_cases hc : c = n
      · subst hc
        rw [hx] at h
        exact absurd h (by simp)
      · rw [mapGet_mapSet_ne _ _ _ _ hc]
        exact ⟨v, h, rfl, fun _ hnm => hnm⟩

theorem presMap_step3AddSide (em : List (JStr × JStr))
    (nem : List (JStr × NormEntity)) (o : JStr) :
    presMap nem (step3AddSide em nem o) := by
  rcases step3AddSide_shape em nem o with hs | ⟨c', _, hx, hs⟩
  · rw [hs]
    exact presMap_refl nem
  · rw [hs]
    intro c v h
    by_cases hc : c = c'
    · subst hc
      rw [hx] at h
      exact absurd h (by simp)
    · rw [mapGet_mapSet_ne _ _ _ _ hc]
      exact ⟨v, h, rfl, fun _ hnm => hnm⟩

theorem presMap_step3Rel (em : List (JStr × JStr)) (neg : List JStr)
    (eo : Bool) (nem : List (JStr × NormEntity)) (r : RawRel) :
    presMap nem (step3Rel em neg eo nem r) := by
  rcases step3Rel_shape em neg eo nem r with hs | ⟨_, _, _, hs⟩ <;> rw [hs]
  · exact presMap_refl nem
  · exact presMap_trans (presMap_step3AddSide _ _ _)
      (presMap_step3AddSide _ _ _)

/-- A raw entity that survives the English filter materializes: the
record at its canonical key records its surface form. -/
theorem materialize_entity_ons (es : List RawEntity) (rs : List RawRel)
    (em : List (JStr × JStr)) (neg : List JStr) (eo : Bool) (e : RawEntity)
    (he : e ∈ es) (hn : e.name ≠ []) (c : JStr)
    (hg : mapGet em (lowerTrim e.name) = some c)
    (heng : ¬ (eo = true ∧ lowerTrim e.name ∈ neg)) :
    ∃ v, mapGet (materialize es rs em neg eo) c = some v ∧
      lowerTrim e.name ∈ v.original_names := by
  have hbase : ∃ v, mapGet (es.foldl (step2Entity em neg eo) []) c = some v ∧
      lowerTrim e.name ∈ v.original_names := by
    refine foldl_mem (step2Entity em neg eo)
      (fun e' st => e'.name ≠ [] → mapGet em (lowerTrim e'.name) = some c →
        ¬ (eo = true ∧ lowerTrim e'.name ∈ neg) →
        ∃ v, mapGet st c = some v ∧ lowerTrim e'.name ∈ v.original_names)
      (fun st x hx1 hx2 hx3 => ?_) (fun st x y hq hx1 hx2 hx3 => ?_)
      es [] e he hn hg heng
    · cases hx : mapGet st c with
      | some ex =>
        have hstep : step2Entity em neg eo st x = mapSet st c
            { ex with original_names :=
                jsDedup (ex.original_names ++ [lowerTrim x.name]) } := by
          simp only [step2Entity, if_neg hx1, hx2]
          rw [if_neg hx3]
          simp [hx]
        rw [hstep]
        refine ⟨_, mapGet_mapSet_self _ _ _, ?_⟩
        simp only
        rw [mem_jsDedup, List.mem_append, List.mem_singleton]
        exact Or.inr rfl
      | none =>
        have hstep : step2Entity em neg eo st x = mapSet st c
            { name := c, type_ := x.type_, role := x.role,
              original_names := [lowerTrim x.name] } := by
          simp only [step2Entity, if_neg hx1, hx2]
          rw [if_neg hx3]
          simp [hx]
        rw [hstep]
        refine ⟨_, mapGet_mapSet_self _ _ _, ?_⟩
        simp
    · obtain ⟨v, hv, hin⟩ := hq hx1 hx2 hx3
      obtain ⟨v', hv', _, ho'⟩ := presMap_step2 em neg eo st y c v hv
      exact ⟨v', hv', ho' _ hin⟩
  obtain ⟨v, hv, hin⟩ := hbase
  have hpres := foldl_inv (step3Rel em neg eo)
    (fun st => presMap (es.foldl (step2Entity em neg eo) []) st)
    (fun st r h => presMap_trans h (presMap_step3Rel em neg eo st r)) rs _
    (presMap_refl _)
  obtain ⟨v', hv', _, ho'⟩ := hpres c v hv
  exact ⟨v', hv', ho' _ hin⟩

end LeaderSim

namespace LeaderSim

/-! ## Step 4 lemmas -/

theorem mem_normalizeRels (rs : List RawRel) (em : List (JStr × JStr))
    (neg : List JStr) (eo : Bool) (nem : List (JStr × NormEntity))
    (nr : NormRel) :
    nr ∈ normalizeRels rs em neg eo nem ↔
      ∃ raw ∈ rs, step4Rel em neg eo nem raw = some nr := by
  rw [normalizeRels, List.mem_filterMap]

theorem step4Rel_some_spec {em : List (JStr × JStr)} {neg : List JStr}
    {eo : Bool} {nem : List (JStr × NormEntity)} {r : RawRel} {nr : NormRel}
    (h : step4Rel em neg eo nem r = some nr) :
    lowerTrim r.source ≠ [] ∧ lowerTrim r.target ≠ [] ∧
    ¬ (eo = true ∧ (lowerTrim r.source ∈ neg ∨ lowerTrim r.target ∈ neg)) ∧
    ∃ sn tn, mapGet em (lowerTrim r.source) = some sn ∧
      mapGet em (lowerTrim r.target) = some tn ∧
      mapHas nem sn = true ∧ mapHas nem tn = true ∧
      nr = { source := sn, target := tn, type_ := r.type_,
             sentiment := r.sentiment, strength := r.strength,
             description := r.description,
             source_original := some (lowerTrim r.source),
             target_original := some (lowerTrim r.target),
             is_fallback := false } := by
  simp only [step4Rel] at h
  split_ifs at h with h1 h2
  refine ⟨fun hh => h1 (Or.inl hh), fun hh => h1 (Or.inr hh), h2, ?_⟩
  split at h
  · rename_i sn tn hgs hgt
    split_ifs at h with h3
    refine ⟨sn, tn, hgs, hgt, h3.1, h3.2, ?_⟩
    injection h with h
    exact h.symm
  · exact absurd h (by simp)

theorem step4Rel_some_of (em : List (JStr × JStr)) (neg : List JStr)
    (eo : Bool) (nem : List (JStr × NormEntity)) (r : RawRel)
    (sn tn : JStr) (hso : lowerTrim r.source ≠ [])
    (hto : lowerTrim r.target ≠ [])
    (hskip : ¬ (eo = true ∧
      (lowerTrim r.source ∈ neg ∨ lowerTrim r.target ∈ neg)))
    (hgs : mapGet em (lowerTrim r.source) = some sn)
    (hgt : mapGet em (lowerTrim r.target) = some tn)
    (hhs : mapHas nem sn = true) (hht : mapHas nem tn = true) :
    step4Rel em neg eo nem r = some
      { source := sn, target := tn, type_ := r.type_,
        sentiment := r.sentiment, strength := r.strength,
        description := r.description,
        source_original := some (lowerTrim r.source),
        target_original := some (lowerTrim r.target),
        is_fallback := false } := by
  simp only [step4Rel]
  rw [if_neg (by
    intro hh
    rcases hh with hh | hh
    · exact hso hh
    · exact hto hh), if_neg hskip, hgs, hgt]
  simp [hhs, hht]

/-! ## Step 5 lemmas -/

theorem mem_connected_aux (nrs : List NormRel) : ∀ (acc : List JStr) (x : JStr),
    x ∈ nrs.foldl (fun s r => setAdd (setAdd s r.source) r.target) acc ↔
      x ∈ acc ∨ ∃ r ∈ nrs, r.source = x ∨ r.target = x := by
  induction nrs with
  | nil => simp
  | cons a t ih =>
    intro acc x
    rw [List.foldl_cons, ih, mem_setAdd, mem_setAdd]
    constructor
    · rintro (((hx | h) | h) | ⟨r, hr, hrx⟩)
      · exact Or.inl hx
      · exact Or.inr ⟨a, List.mem_cons_self _ _, Or.inl h.symm⟩
      · exact Or.inr ⟨a, List.mem_cons_self _ _, Or.inr h.symm⟩
      · exact Or.inr ⟨r, List.mem_cons_of_mem _ hr, hrx⟩
    · rintro (hx | ⟨r, hr, hrx⟩)
      · exact Or.inl (Or.inl (Or.inl hx))
      · rcases List.mem_cons.mp hr with rfl | hr
        · rcases hrx with h | h
          · exact Or.inl (Or.inl (Or.inr h.symm))
          · exact Or.inl (Or.inr h.symm)
        · exact Or.inr ⟨r, hr, hrx⟩

theorem mem_connectedOf (nrs : List NormRel) (x : JStr) :
    x ∈ connectedOf nrs ↔ ∃ r ∈ nrs, r.source = x ∨ r.target = x := by
  rw [connectedOf, mem_connected_aux]
  simp

theorem mem_keys_bumpCount (m : List (JStr × Nat)) (k k' : JStr) :
    k' ∈ keysOf (bumpCount m k) ↔ k' ∈ keysOf m ∨ k' = k :=
  mem_keys_mapSet m k k' _

theorem counts_pos (nrs : List NormRel) :
    ∀ p ∈ countsOf nrs, 1 ≤ p.2 := by
  refine foldl_inv (fun m r => bumpCount (bumpCount m r.source) r.target)
    (fun m => ∀ p ∈ m, 1 ≤ p.2) (fun m r h => ?_) nrs [] (by simp)
  refine forall_mapSet _ _ _ _ (forall_mapSet _ _ _ _ h (by simp)) (by simp)

theorem counts_keys_touch (nrs : List NormRel) : ∀ (acc : List (JStr × Nat))
    (k : JStr),
    k ∈ keysOf (nrs.foldl (fun m r => bumpCount (bumpCount m r.source) r.target) acc) →
    k ∈ keysOf acc ∨ ∃ r ∈ nrs, r.source = k ∨ r.target = k := by
  induction nrs with
  | nil => simp
  | cons a t ih =>
    intro acc k hk
    rw [List.foldl_cons] at hk
    rcases ih _ k hk with hk' | ⟨r, hr, hrx⟩
    · rw [mem_keys_bumpCount, mem_keys_bumpCount] at hk'
      rcases hk' with (hk' | rfl) | rfl
      · exact Or.inl hk'
      · exact Or.inr ⟨a, List.mem_cons_self _ _, Or.inl rfl⟩
      · exact Or.inr ⟨a, List.mem_cons_self _ _, Or.inr rfl⟩
    · exact Or.inr ⟨r, List.mem_cons_of_mem _ hr, hrx⟩

theorem getD_bumpCount_self (m : List (JStr × Nat)) (k : JStr) :
    (mapGet (bumpCount m k) k).getD 0 = (mapGet m k).getD 0 + 1 := by
  rw [bumpCount, mapGet_mapSet_self]
  rfl

theorem getD_bumpCount_ne (m : List (JStr × Nat)) (k k' : JStr)
    (h : k' ≠ k) :
    (mapGet (bumpCount m k) k').getD 0 = (mapGet m k').getD 0 := by
  rw [bumpCount, mapGet_mapSet_ne _ _ _ _ h]

/-- The degree map stores, for every name, its in-degree plus out-degree
over the surviving relationships. -/
theorem counts_getD_aux (nrs : List NormRel) : ∀ (acc : List (JStr × Nat))
    (k : JStr),
    (mapGet (nrs.foldl (fun m r => bumpCount (bumpCount m r.source) r.target) acc) k).getD 0 =
      (mapGet acc k).getD 0 + nrs.countP (fun r => r.source == k) +
        nrs.countP (fun r => r.target == k) := by
  induction nrs with
  | nil => simp
  | cons a t ih =>
    intro acc k
    rw [List.foldl_cons, ih, List.countP_cons, List.countP_cons]
    have hstep : (mapGet (bumpCount (bumpCount acc a.source) a.target) k).getD 0 =
        (mapGet acc k).getD 0 + (if a.source == k then 1 else 0) +
          (if a.target == k then 1 else 0) := by
      by_cases hs : a.source = k <;> by_cases ht : a.target = k
      · subst hs
        rw [ht]
        rw [getD_bumpCount_self, getD_bumpCount_self]
        simp [ht]
      · subst hs
        rw [getD_bumpCount_ne _ _ _ (fun hh => ht hh.symm), getD_bumpCount_self]
        simp [ht]
      · subst ht
        rw [getD_bumpCount_self, getD_bumpCount_ne _ _ _ (fun hh => hs hh.symm)]
        simp [hs]
      · rw [getD_bumpCount_ne _ _ _ (fun hh => ht hh.symm),
          getD_bumpCount_ne _ _ _ (fun hh => hs hh.symm)]
        simp [hs, ht]
    rw [hstep]
    omega

theorem counts_getD (nrs : List NormRel) (k : JStr) :
    (mapGet (countsOf nrs) k).getD 0 =
      nrs.countP (fun r => r.source == k) +
        nrs.countP (fun r => r.target == k) := by
  rw [countsOf, counts_getD_aux]
  simp [mapGet]

end LeaderSim

namespace LeaderSim

/-! ## The hub scan -/

theorem maxKeyVal_cons (x : JStr × Nat) (t : List (JStr × Nat)) :
    maxKeyVal (x :: t) = max x.2 (maxKeyVal t) := rfl

/-- The max-degree scan of step 5 returns the accumulator when nothing
exceeds it, and otherwise the first entry attaining the maximum. -/
theorem scanMax_spec (l : List (JStr × Nat)) : ∀ (bn : JStr) (bm : Nat),
    (scanMax (bn, bm) l).2 = max bm (maxKeyVal l) ∧
    (maxKeyVal l ≤ bm → (scanMax (bn, bm) l).1 = bn) ∧
    (bm < maxKeyVal l → ∃ c,
      l.find? (fun p => p.2 == maxKeyVal l) = some ((scanMax (bn, bm) l).1, c)) := by
  induction l with
  | nil =>
    intro bn bm
    refine ⟨by simp [scanMax, maxKeyVal], fun _ => rfl, fun h => ?_⟩
    simp [maxKeyVal] at h
  | cons x t ih =>
    intro bn bm
    obtain ⟨x1, x2⟩ := x
    rw [scanMax, maxKeyVal_cons]
    by_cases hx : x2 > bm
    · rw [if_pos hx]
      obtain ⟨ih1, ih2, ih3⟩ := ih x1 x2
      refine ⟨by rw [ih1]; omega, fun h => ?_, fun h => ?_⟩
      · omega
      · by_cases hcmp : maxKeyVal t ≤ x2
        · have hM : max x2 (maxKeyVal t) = x2 := by omega
          rw [hM]
          refine ⟨x2, ?_⟩
          have hfind : List.find? (fun p => p.2 == x2) ((x1, x2) :: t)
              = some (x1, x2) :=
            List.find?_cons_of_pos t (beq_self_eq_true x2)
          rw [hfind, ih2 hcmp]
        · have hM : max x2 (maxKeyVal t) = maxKeyVal t := by omega
          rw [hM]
          rw [List.find?_cons_of_neg _ (by
            intro hcon
            rw [beq_iff_eq] at hcon
            omega)]
          exact ih3 (by omega)
    · rw [if_neg hx]
      obtain ⟨ih1, ih2, ih3⟩ := ih bn bm
      refine ⟨by rw [ih1]; omega, fun h => ?_, fun h => ?_⟩
      · exact ih2 (by omega)
      · have hM : max x2 (maxKeyVal t) = maxKeyVal t := by omega
        rw [hM]
        rw [List.find?_cons_of_neg _ (by
          intro hcon
          rw [beq_iff_eq] at hcon
          omega)]
        exact ih3 (by omega)

/-! ## Fallback edges -/

theorem mem_fallbacksOf (nem : List (JStr × NormEntity)) (nrs : List NormRel)
    (fb : NormRel) :
    fb ∈ fallbacksOf nem nrs ↔ ∃ p ∈ nem,
      (p.1 ∉ connectedOf nrs ∧
       (mainEntityNameOf nem nrs ≠ [] ∧
        mapHas nem (mainEntityNameOf nem nrs) = true) ∧
       p.1 ≠ mainEntityNameOf nem nrs) ∧
      fb = fallbackRel (mainEntityNameOf nem nrs) p.1 := by
  rw [fallbacksOf, List.mem_filterMap]
  constructor
  · rintro ⟨p, hp, hg⟩
    split_ifs at hg with hc
    · injection hg with hg
      exact ⟨p, hp, hc, hg.symm⟩
  · rintro ⟨p, hp, hc, rfl⟩
    refine ⟨p, hp, ?_⟩
    rw [if_pos hc]

theorem nrs_not_fallback (rs : List RawRel) (em : List (JStr × JStr))
    (neg : List JStr) (eo : Bool) (nem : List (JStr × NormEntity))
    (nr : NormRel) (h : nr ∈ normalizeRels rs em neg eo nem) :
    nr.is_fallback = false := by
  rw [mem_normalizeRels] at h
  obtain ⟨raw, _, hs⟩ := h
  obtain ⟨_, _, _, _, _, _, _, _, _, rfl⟩ := step4Rel_some_spec hs
  rfl

end LeaderSim

namespace LeaderSim

/-! ## Named pipeline stages -/

theorem normalizeNetworkData_eq (es : List RawEntity) (rs : List RawRel)
    (eo : Bool) :
    normalizeNetworkData es rs eo =
      { entities := (materializedOf es rs eo).map Prod.snd,
        relationships := survivingRelsOf es rs eo ++
          fallbacksOf (materializedOf es rs eo) (survivingRelsOf es rs eo) } :=
  rfl

/-- A key of the materialized map yields an output entity of that name. -/
theorem entity_of_key (nem : List (JStr × NormEntity)) (hinv : nameInv nem)
    (k : JStr) (hk : k ∈ keysOf nem) :
    ∃ e ∈ nem.map Prod.snd, e.name = k := by
  rw [keysOf, List.mem_map] at hk
  obtain ⟨p, hp, rfl⟩ := hk
  exact ⟨p.2, List.mem_map_of_mem _ hp, hinv p hp⟩

/-- Endpoints of surviving relationships are present, materialized and
nonempty. -/
theorem nrs_endpoint_props (es : List RawEntity) (rs : List RawRel)
    (eo : Bool) (nr : NormRel) (h : nr ∈ survivingRelsOf es rs eo) :
    mapHas (materializedOf es rs eo) nr.source = true ∧
    mapHas (materializedOf es rs eo) nr.target = true ∧
    nr.source ≠ [] ∧ nr.target ≠ [] := by
  rw [survivingRelsOf, mem_normalizeRels] at h
  obtain ⟨raw, _, hs⟩ := h
  obtain ⟨hso, hto, _, sn, tn, hgs, hgt, hhs, hht, rfl⟩ := step4Rel_some_spec hs
  exact ⟨hhs, hht, pass1_get_ne_nil es rs _ _ hso hgs,
    pass1_get_ne_nil es rs _ _ hto hgt⟩

theorem le_maxKeyVal (l : List (JStr × Nat)) (p : JStr × Nat) (hp : p ∈ l) :
    p.2 ≤ maxKeyVal l := by
  induction l with
  | nil => simp at hp
  | cons x t ih =>
    rw [maxKeyVal_cons]
    rcases List.mem_cons.mp hp with rfl | hp
    · omega
    · have := ih hp
      omega

theorem getD_le_maxKeyVal (l : List (JStr × Nat)) (k : JStr) :
    (mapGet l k).getD 0 ≤ maxKeyVal l := by
  cases hg : mapGet l k with
  | none => simp
  | some v =>
    have := le_maxKeyVal l (k, v) (mem_of_mapGet_eq_some hg)
    simpa using this

/-- When at least one relationship survives, the hub is the scan result,
it is nonempty, materialized, connected, and it is the first entry of the
degree map attaining the maximum degree. -/
theorem hub_spec (es : List RawEntity) (rs : List RawRel) (eo : Bool)
    (hnrs : survivingRelsOf es rs eo ≠ []) :
    hubOf es rs eo ≠ [] ∧
    mapHas (materializedOf es rs eo) (hubOf es rs eo) = true ∧
    hubOf es rs eo ∈ connectedOf (survivingRelsOf es rs eo) ∧
    specFirstMax (countsOf (survivingRelsOf es rs eo)) =
      some (hubOf es rs eo) := by
  obtain ⟨nr, hnr⟩ := List.exists_mem_of_ne_nil _ hnrs
  have hpos : 0 < maxKeyVal (countsOf (survivingRelsOf es rs eo)) := by
    have h1 : 1 ≤ (survivingRelsOf es rs eo).countP
        (fun r => r.source == nr.source) := by
      have : 0 < (survivingRelsOf es rs eo).countP
          (fun r => r.source == nr.source) :=
        List.countP_pos_iff.mpr ⟨nr, hnr, beq_self_eq_true _⟩
      omega
    have h2 := counts_getD (survivingRelsOf es rs eo) nr.source
    have h3 := getD_le_maxKeyVal (countsOf (survivingRelsOf es rs eo)) nr.source
    omega
  obtain ⟨_, _, hfind⟩ :=
    scanMax_spec (countsOf (survivingRelsOf es rs eo)) [] 0
  obtain ⟨c, hc⟩ := hfind hpos
  set scanned := (scanMax ([], 0) (countsOf (survivingRelsOf es rs eo))).1
    with hscanned
  have hmem : (scanned, c) ∈ countsOf (survivingRelsOf es rs eo) :=
    List.mem_of_find?_eq_some hc
  have hkeys : scanned ∈ keysOf (countsOf (survivingRelsOf es rs eo)) := by
    rw [keysOf, List.mem_map]
    exact ⟨(scanned, c), hmem, rfl⟩
  have htouch : ∃ r ∈ survivingRelsOf es rs eo,
      r.source = scanned ∨ r.target = scanned := by
    have := counts_keys_touch (survivingRelsOf es rs eo) [] scanned hkeys
    rcases this with h | h
    · simp [keysOf] at h
    · exact h
  have hscne : scanned ≠ [] := by
    obtain ⟨r, hr, hrx⟩ := htouch
    obtain ⟨_, _, hs, ht⟩ := nrs_endpoint_props es rs eo r hr
    rcases hrx with h | h
    · rw [← h]
      exact hs
    · rw [← h]
      exact ht
  have hhub : hubOf es rs eo = scanned := by
    rw [hubOf, mainEntityNameOf, if_neg]
    intro hcon
    exact hscne hcon.1
  have hhas : mapHas (materializedOf es rs eo) scanned = true := by
    obtain ⟨r, hr, hrx⟩ := htouch
    obtain ⟨hs, ht, _, _⟩ := nrs_endpoint_props es rs eo r hr
    rcases hrx with h | h
    · rw [← h]
      exact hs
    · rw [← h]
      exact ht
  refine ⟨hhub ▸ hscne, hhub ▸ hhas, ?_, ?_⟩
  · rw [hhub, mem_connectedOf]
    exact htouch
  · rw [specFirstMax, hc, hhub]
    rfl

end LeaderSim

namespace LeaderSim

/-! ## Claim C1 -/

/-- Claim C1: for every input, every relationship in the output of
normalizeNetworkData (real or fallback) has a source name and a target
name that each equal the name of some entity in the output entity list —
no output relationship dangles. -/
theorem claim_C1_no_dangling_edges (es : List RawEntity) (rs : List RawRel)
    (eo : Bool) (r : NormRel)
    (hr : r ∈ (normalizeNetworkData es rs eo).relationships) :
    (∃ e ∈ (normalizeNetworkData es rs eo).entities, e.name = r.source) ∧
    (∃ e ∈ (normalizeNetworkData es rs eo).entities, e.name = r.target) := by
  have hname : nameInv (materializedOf es rs eo) := nameInv_materialize _ _ _ _ _
  rw [normalizeNetworkData_eq] at hr ⊢
  simp only at hr ⊢
  rcases List.mem_append.mp hr with hr | hr
  · obtain ⟨hhs, hht, _, _⟩ := nrs_endpoint_props es rs eo r hr
    exact ⟨entity_of_key _ hname _ ((mapHas_iff _ _).mp hhs),
      entity_of_key _ hname _ ((mapHas_iff _ _).mp hht)⟩
  · rw [mem_fallbacksOf] at hr
    obtain ⟨p, hp, ⟨_, ⟨_, hhubhas⟩, _⟩, rfl⟩ := hr
    constructor
    · exact entity_of_key _ hname _ ((mapHas_iff _ _).mp hhubhas)
    · refine entity_of_key _ hname _ ?_
      rw [keysOf, List.mem_map]
      exact ⟨p, hp, rfl⟩

/-- Witness for C1 at a two-node relationship-only input. -/
theorem claim_C1_witness :
    (∃ e ∈ (normalizeNetworkData []
        [{ source := js "bob", target := js "amy", type_ := js "ally",
           sentiment := js "neutral", strength := 2, description := [] }]
        false).entities,
      e.name = js "bob") ∧
    (∃ e ∈ (normalizeNetworkData []
        [{ source := js "bob", target := js "amy", type_ := js "ally",
           sentiment := js "neutral", strength := 2, description := [] }]
        false).entities,
      e.name = js "amy") :=
  claim_C1_no_dangling_edges []
    [{ source := js "bob", target := js "amy", type_ := js "ally",
       sentiment := js "neutral", strength := 2, description := [] }]
    false
    { source := js "bob", target := js "amy", type_ := js "ally",
      sentiment := js "neutral", strength := 2, description := [],
      source_original := some (js "bob"), target_original := some (js "amy"),
      is_fallback := false }
    (by decide)

/-! ## Claim C5 -/

/-- Claim C5: with englishOnly = true, no output entity's original_names
contains a string that isLikelyEnglish rejects, and no output
relationship carries a source_original or target_original that
isLikelyEnglish rejects. -/
theorem claim_C5_english_filter (es : List RawEntity) (rs : List RawRel) :
    (∀ e ∈ (normalizeNetworkData es rs true).entities,
      ∀ nm ∈ e.original_names, isLikelyEnglish nm = true) ∧
    (∀ r ∈ (normalizeNetworkData es rs true).relationships,
      (∀ s, r.source_original = some s → isLikelyEnglish s = true) ∧
      (∀ s, r.target_original = some s → isLikelyEnglish s = true)) := by
  have heng : engInv (pass1 es rs) := pass1_engInv es rs
  have hons : onsInv (entityMapOf es rs) (nonEnglishOf es rs) true
      (materializedOf es rs true) := onsInv_materialize _ _ _ _ _
  constructor
  · intro e he nm hnm
    rw [normalizeNetworkData_eq] at he
    simp only at he
    rw [List.mem_map] at he
    obtain ⟨p, hp, rfl⟩ := he
    obtain ⟨hkey, hneg⟩ := hons p hp nm hnm
    rcases heng nm hkey with hin | hin
    · exact absurd hin (hneg rfl)
    · exact hin
  · intro r hr
    rw [normalizeNetworkData_eq] at hr
    simp only at hr
    rcases List.mem_append.mp hr with hr | hr
    · rw [survivingRelsOf, mem_normalizeRels] at hr
      obtain ⟨raw, _, hs⟩ := hr
      obtain ⟨_, _, hskip, sn, tn, hgs, hgt, _, _, rfl⟩ := step4Rel_some_spec hs
      have hnegs : lowerTrim raw.source ∉ nonEnglishOf es rs := by
        intro hmem
        exact hskip ⟨rfl, Or.inl hmem⟩
      have hnegt : lowerTrim raw.target ∉ nonEnglishOf es rs := by
        intro hmem
        exact hskip ⟨rfl, Or.inr hmem⟩
      have hkeys : lowerTrim raw.source ∈ keysOf (entityMapOf es rs) := by
        rw [← mapGet_isSome_iff, hgs]
        rfl
      have hkeyt : lowerTrim raw.target ∈ keysOf (entityMapOf es rs) := by
        rw [← mapGet_isSome_iff, hgt]
        rfl
      constructor
      · intro s hsome
        injection hsome with hsome
        subst hsome
        rcases heng _ hkeys with hin | hin
        · exact absurd hin hnegs
        · exact hin
      · intro s hsome
        injection hsome with hsome
        subst hsome
        rcases heng _ hkeyt with hin | hin
        · exact absurd hin hnegt
        · exact hin
    · rw [mem_fallbacksOf] at hr
      obtain ⟨p, _, _, rfl⟩ := hr
      exact ⟨fun s hsome => by simp [fallbackRel] at hsome,
        fun s hsome => by simp [fallbackRel] at hsome⟩

/-- Witness for C5: the Cyrillic surface form recorded for the merged
Putin entity is itself classified as likely English. -/
theorem claim_C5_witness :
    isLikelyEnglish (js "владимир путин") = true :=
  (claim_C5_english_filter
    [{ name := js "Владимир Путин", type_ := js "politician", role := [] }]
    []).1
    { name := js "vladimir putin", type_ := js "politician", role := [],
      original_names := [js "владимир путин"] }
    (by decide) (js "владимир путин") (by decide)

end LeaderSim

namespace LeaderSim

/-! ## Claim C6 -/

theorem countP_name_eq_one (nem : List (JStr × NormEntity))
    (hnodup : (keysOf nem).Nodup) (hname : nameInv nem) (c : JStr)
    (hc : c ∈ keysOf nem) :
    (nem.map Prod.snd).countP (fun v => v.name == c) = 1 := by
  induction nem with
  | nil => simp [keysOf] at hc
  | cons p rest ih =>
    rw [keysOf, List.map_cons, List.nodup_cons] at hnodup
    rw [List.map_cons, List.countP_cons]
    rcases List.mem_cons.mp hc with hc | hc
    · have hzero : (rest.map Prod.snd).countP (fun v => v.name == c) = 0 := by
        rw [List.countP_eq_zero]
        intro v hv
        rw [List.mem_map] at hv
        obtain ⟨q, hq, rfl⟩ := hv
        intro hcon
        rw [beq_iff_eq, hname q (List.mem_cons_of_mem _ hq)] at hcon
        have hmem : q.1 ∈ List.map Prod.fst rest :=
          List.mem_map_of_mem Prod.fst hq
        rw [hcon, hc] at hmem
        exact hnodup.1 hmem
      have hone : (p.2.name == c) = true := by
        rw [beq_iff_eq, hname p (List.mem_cons_self _ _), hc]
      rw [hzero, hone]
      rfl
    · have hpc : p.1 ≠ c := by
        intro hcon
        exact hnodup.1 (hcon ▸ hc)
      have hind : (p.2.name == c) = false := by
        rw [beq_eq_false_iff_ne, hname p (List.mem_cons_self _ _)]
        exact hpc
      rw [hind, ih hnodup.2 (fun q hq => hname q (List.mem_cons_of_mem _ hq)) hc]
      rfl

/-- Claim C6, counterexample: on entities ["trump", "tramp", "trumps"]
(no filtering) the names "trump" and "trumps" both resolve via
normalizeEntityName to "donald trump", yet the output's "donald trump"
entity lacks "trump" among its original_names (processing "tramp"
overwrote the entity map's "trump" entry); and on entities
["ट्रम्प", "трамп"] with englishOnly = true both names resolve to
"trump", yet the output "trump" entity lacks "трамп" (filtered as
non-English). -/
theorem claim_C6_counterexample :
    (normalizeEntityName (js "trump") = js "donald trump" ∧
     normalizeEntityName (js "trumps") = js "donald trump" ∧
     ¬ ∃ e ∈ (normalizeNetworkData
        [{ name := js "trump", type_ := js "person", role := [] },
         { name := js "tramp", type_ := js "person", role := [] },
         { name := js "trumps", type_ := js "person", role := [] }]
        [] false).entities,
      e.name = js "donald trump" ∧ js "trump" ∈ e.original_names ∧
        js "trumps" ∈ e.original_names) ∧
    (normalizeEntityName (js "ट्रम्प") = js "trump" ∧
     normalizeEntityName (js "трамп") = js "trump" ∧
     ¬ ∃ e ∈ (normalizeNetworkData
        [{ name := js "ट्रम्प", type_ := js "person", role := [] },
         { name := js "трамп", type_ := js "person", role := [] }]
        [] true).entities,
      e.name = js "trump" ∧ js "ट्रम्प" ∈ e.original_names ∧
        js "трамп" ∈ e.original_names) := by decide

/-- Claim C6 as amended: for every pair of raw input entities whose
lowercased-trimmed names the normalizer's first-pass entity map sends to
the same canonical form (this map can disagree with normalizeEntityName
when one raw name coincides with another name's canonical form and
overwrites its entry), and which both survive the englishOnly filter, the
output contains exactly one entity with that canonical name, and its
original_names contains both surface forms. -/
theorem claim_C6_amended_merge_correctness (es : List RawEntity)
    (rs : List RawRel) (eo : Bool) (e1 e2 : RawEntity) (c : JStr)
    (he1 : e1 ∈ es) (he2 : e2 ∈ es) (hn1 : e1.name ≠ []) (hn2 : e2.name ≠ [])
    (hg1 : mapGet (entityMapOf es rs) (lowerTrim e1.name) = some c)
    (hg2 : mapGet (entityMapOf es rs) (lowerTrim e2.name) = some c)
    (heng1 : ¬ (eo = true ∧ lowerTrim e1.name ∈ nonEnglishOf es rs))
    (heng2 : ¬ (eo = true ∧ lowerTrim e2.name ∈ nonEnglishOf es rs)) :
    (normalizeNetworkData es rs eo).entities.countP (fun v => v.name == c) = 1 ∧
    ∃ e ∈ (normalizeNetworkData es rs eo).entities, e.name = c ∧
      lowerTrim e1.name ∈ e.original_names ∧
      lowerTrim e2.name ∈ e.original_names := by
  obtain ⟨v1, hv1, ho1⟩ :=
    materialize_entity_ons es rs (entityMapOf es rs) (nonEnglishOf es rs) eo
      e1 he1 hn1 c hg1 heng1
  obtain ⟨v2, hv2, ho2⟩ :=
    materialize_entity_ons es rs (entityMapOf es rs) (nonEnglishOf es rs) eo
      e2 he2 hn2 c hg2 heng2
  have hv12 : v1 = v2 := by
    have := hv1.symm.trans hv2
    injection this
  subst hv12
  have hname : nameInv (materializedOf es rs eo) := nameInv_materialize _ _ _ _ _
  have hv1' : mapGet (materializedOf es rs eo) c = some v1 := hv1
  have hkey : c ∈ keysOf (materializedOf es rs eo) := by
    rw [← mapGet_isSome_iff, hv1']
    rfl
  rw [normalizeNetworkData_eq]
  simp only
  constructor
  · exact countP_name_eq_one _ (nodup_materialize _ _ _ _ _) hname c hkey
  · refine ⟨v1, List.mem_map_of_mem Prod.snd (mem_of_mapGet_eq_some hv1), ?_, ho1, ho2⟩
    exact hname (c, v1) (mem_of_mapGet_eq_some hv1)

/-- Witness for the amended C6: "Biden" and "president biden" both map to
"joe biden" and merge into one entity carrying both surface forms. -/
theorem claim_C6_amended_witness :
    (normalizeNetworkData
      [{ name := js "Biden", type_ := js "politician", role := [] },
       { name := js "president biden", type_ := js "politician", role := [] }]
      [] false).entities.countP (fun v => v.name == js "joe biden") = 1 ∧
    ∃ e ∈ (normalizeNetworkData
      [{ name := js "Biden", type_ := js "politician", role := [] },
       { name := js "president biden", type_ := js "politician", role := [] }]
      [] false).entities, e.name = js "joe biden" ∧
      lowerTrim (js "Biden") ∈ e.original_names ∧
      lowerTrim (js "president biden") ∈ e.original_names :=
  claim_C6_amended_merge_correctness
    [{ name := js "Biden", type_ := js "politician", role := [] },
     { name := js "president biden", type_ := js "politician", role := [] }]
    [] false
    { name := js "Biden", type_ := js "politician", role := [] }
    { name := js "president biden", type_ := js "politician", role := [] }
    (js "joe biden")
    (by decide) (by decide) (by decide) (by decide) (by decide) (by decide)
    (by decide) (by decide)

end LeaderSim

namespace LeaderSim

/-! ## Claim C2 -/

/-- Claim C2, counterexample: entities ["alice", "путин"] with the valid
relationship alice → путин and englishOnly = true: "путин" is flagged
non-English, the relationship is dropped, and the surviving entity
"alice" appears in no output relationship. -/
theorem claim_C2_counterexample :
    2 ≤ ([{ name := js "alice", type_ := js "person", role := [] },
          { name := js "путин", type_ := js "person", role := [] }] :
            List RawEntity).length ∧
    lowerTrim (js "alice") ≠ [] ∧ lowerTrim (js "путин") ≠ [] ∧
    ¬ (∀ e ∈ (normalizeNetworkData
        [{ name := js "alice", type_ := js "person", role := [] },
         { name := js "путин", type_ := js "person", role := [] }]
        [{ source := js "alice", target := js "путин", type_ := js "ally",
           sentiment := js "neutral", strength := 2, description := [] }]
        true).entities,
      ∃ r ∈ (normalizeNetworkData
        [{ name := js "alice", type_ := js "person", role := [] },
         { name := js "путин", type_ := js "person", role := [] }]
        [{ source := js "alice", target := js "путин", type_ := js "ally",
           sentiment := js "neutral", strength := 2, description := [] }]
        true).relationships,
        r.source = e.name ∨ r.target = e.name) := by decide

/-- Claim C2 as amended: given at least 2 entities and at least one
relationship with nonempty (lowercased, trimmed) source and target, and
englishOnly = false (so that the English filter cannot drop it), every
entity in the output of normalizeNetworkData appears as the source or the
target of at least one output relationship, real or fallback. -/
theorem claim_C2_amended_no_orphans (es : List RawEntity) (rs : List RawRel)
    (hes : 2 ≤ es.length)
    (hrel : ∃ r ∈ rs, lowerTrim r.source ≠ [] ∧ lowerTrim r.target ≠ []) :
    ∀ e ∈ (normalizeNetworkData es rs false).entities,
      ∃ r' ∈ (normalizeNetworkData es rs false).relationships,
        r'.source = e.name ∨ r'.target = e.name := by
  obtain ⟨r, hr, hso, hto⟩ := hrel
  have hskip : ¬ (false = true ∧
      (lowerTrim r.source ∈ nonEnglishOf es rs ∨
       lowerTrim r.target ∈ nonEnglishOf es rs)) := by
    intro h
    exact Bool.false_ne_true h.1
  -- the valid relationship survives step 4
  obtain ⟨hks, hkt⟩ := pass1_rel_key es rs r hr
  have hsomes : (mapGet (entityMapOf es rs) (lowerTrim r.source)).isSome = true :=
    (mapGet_isSome_iff _ _).mpr (hks hso)
  have hsomet : (mapGet (entityMapOf es rs) (lowerTrim r.target)).isSome = true :=
    (mapGet_isSome_iff _ _).mpr (hkt hto)
  obtain ⟨sn, hgs⟩ := Option.isSome_iff_exists.mp hsomes
  obtain ⟨tn, hgt⟩ := Option.isSome_iff_exists.mp hsomet
  obtain ⟨hms, hmt⟩ := materialize_rel_key es rs (entityMapOf es rs)
    (nonEnglishOf es rs) false r hr hso hto hskip
  have hstep4 := step4Rel_some_of (entityMapOf es rs) (nonEnglishOf es rs)
    false (materializedOf es rs false) r sn tn hso hto hskip hgs hgt
    ((mapHas_iff _ _).mpr (hms sn hgs)) ((mapHas_iff _ _).mpr (hmt tn hgt))
  have hnrs : survivingRelsOf es rs false ≠ [] := by
    intro hnil
    have : _ ∈ survivingRelsOf es rs false :=
      (mem_normalizeRels rs _ _ _ _ _).mpr ⟨r, hr, hstep4⟩
    rw [hnil] at this
    exact (List.not_mem_nil _) this
  obtain ⟨hhubne, hhubhas, hhubconn, _⟩ := hub_spec es rs false hnrs
  -- every output entity touches some output relationship
  intro e he
  rw [normalizeNetworkData_eq] at he ⊢
  simp only at he ⊢
  rw [List.mem_map] at he
  obtain ⟨p, hp, rfl⟩ := he
  have hname : p.2.name = p.1 := nameInv_materialize es rs _ _ false p hp
  by_cases hconn : p.1 ∈ connectedOf (survivingRelsOf es rs false)
  · rw [mem_connectedOf] at hconn
    obtain ⟨r', hr', hrx⟩ := hconn
    refine ⟨r', List.mem_append_left _ hr', ?_⟩
    rw [hname]
    exact hrx
  · by_cases hhub : p.1 = hubOf es rs false
    · rw [hhub] at hconn
      exact absurd hhubconn hconn
    · refine ⟨fallbackRel (hubOf es rs false) p.1, ?_, ?_⟩
      · refine List.mem_append_right _ ?_
        rw [mem_fallbacksOf]
        exact ⟨p, hp, ⟨hconn, ⟨hhubne, hhubhas⟩, hhub⟩, rfl⟩
      · right
        rw [hname]
        rfl

/-- Witness for the amended C2: the orphaned entity "gamma" is reached by
a fallback relationship. -/
theorem claim_C2_amended_witness :
    ∃ r ∈ (normalizeNetworkData
      [{ name := js "alpha", type_ := js "person", role := [] },
       { name := js "beta", type_ := js "person", role := [] },
       { name := js "gamma", type_ := js "person", role := [] }]
      [{ source := js "alpha", target := js "beta", type_ := js "ally",
         sentiment := js "neutral", strength := 2, description := [] }]
      false).relationships,
      r.source = js "gamma" ∨ r.target = js "gamma" :=
  claim_C2_amended_no_orphans
    [{ name := js "alpha", type_ := js "person", role := [] },
     { name := js "beta", type_ := js "person", role := [] },
     { name := js "gamma", type_ := js "person", role := [] }]
    [{ source := js "alpha", target := js "beta", type_ := js "ally",
       sentiment := js "neutral", strength := 2, description := [] }]
    (by decide) (by decide)
    { name := js "gamma", type_ := js "person", role := [],
      original_names := [js "gamma"] }
    (by decide)

end LeaderSim

namespace LeaderSim

/-! ## Claim C7 -/

theorem count_filterMap_one (g : JStr × NormEntity → Option NormRel)
    (b : NormRel) (k : JStr) (l : List (JStr × NormEntity))
    (hnodup : (keysOf l).Nodup) (hk : k ∈ keysOf l)
    (hyes : ∀ p : JStr × NormEntity, p.1 = k → g p = some b)
    (hno : ∀ p : JStr × NormEntity, p.1 ≠ k → ∀ b', g p = some b' → b' ≠ b) :
    (l.filterMap g).count b = 1 := by
  induction l with
  | nil => simp [keysOf] at hk
  | cons p rest ih =>
    rw [keysOf, List.map_cons, List.nodup_cons] at hnodup
    rcases List.mem_cons.mp hk with hk | hk
    · have hgp : g p = some b := hyes p hk.symm
      rw [List.filterMap_cons_some hgp, List.count_cons_self]
      have hzero : (rest.filterMap g).count b = 0 := by
        rw [List.count_eq_zero]
        intro hmem
        rw [List.mem_filterMap] at hmem
        obtain ⟨q, hq, hgq⟩ := hmem
        have hqk : q.1 ≠ k := by
          intro hcon
          apply hnodup.1
          rw [← hk, ← hcon]
          exact List.mem_map_of_mem Prod.fst hq
        exact hno q hqk b hgq rfl
      rw [hzero]
    · have hpk : p.1 ≠ k := fun hcon => hnodup.1 (hcon ▸ hk)
      cases hgp : g p with
      | none =>
        rw [List.filterMap_cons_none hgp]
        exact ih hnodup.2 hk
      | some b' =>
        rw [List.filterMap_cons_some hgp,
          List.count_cons_of_ne (fun hcon => hno p hpk b' hgp hcon.symm)]
        exact ih hnodup.2 hk

theorem headD_mem (l : List JStr) (h : l ≠ []) : l.headD [] ∈ l := by
  cases l with
  | nil => exact absurd rfl h
  | cons a t => exact List.mem_cons_self _ _

/-- Claim C7, counterexample: with the entities [" ", "bob"] and no
relationships, " " materializes under the empty canonical name, the hub
falls back to that first entity, and — its empty name being falsy — the
repair is skipped entirely: "bob" is a materialized non-hub entity in no
surviving relationship, yet no fallback relationship is appended. -/
theorem claim_C7_counterexample :
    (normalizeNetworkData
      [{ name := js " ", type_ := js "person", role := [] },
       { name := js "bob", type_ := js "person", role := [] }]
      [] false).entities.map NormEntity.name = [[], js "bob"] ∧
    (normalizeNetworkData
      [{ name := js " ", type_ := js "person", role := [] },
       { name := js "bob", type_ := js "person", role := [] }]
      [] false).relationships = [] := by decide

/-- Claim C7 as amended: the degree map stores in+out degree over the
surviving relationships; with at least one surviving relationship the hub
is the first entry of the degree map attaining the maximum degree; with
none it is the first materialized entity's name; and — provided the hub's
name is nonempty (a whitespace-only raw name can make the fallback hub's
canonical name the empty string, which is falsy, disabling the repair) —
exactly one fallback relationship {source: hub, target: entity, type:
"connection", sentiment: "neutral", strength: 1, description: "Connected
entities", is_fallback: true} is appended for every materialized entity
that appears in no surviving relationship and is not the hub. -/
theorem claim_C7_amended_hub_and_fallbacks (es : List RawEntity)
    (rs : List RawRel) (eo : Bool) :
    (∀ k : JStr, (mapGet (countsOf (survivingRelsOf es rs eo)) k).getD 0 =
      (survivingRelsOf es rs eo).countP (fun r => r.source == k) +
        (survivingRelsOf es rs eo).countP (fun r => r.target == k)) ∧
    (survivingRelsOf es rs eo ≠ [] →
      specFirstMax (countsOf (survivingRelsOf es rs eo)) =
        some (hubOf es rs eo)) ∧
    (survivingRelsOf es rs eo = [] →
      hubOf es rs eo = (keysOf (materializedOf es rs eo)).headD []) ∧
    (∀ k, k ∈ keysOf (materializedOf es rs eo) →
      (∀ r ∈ survivingRelsOf es rs eo, r.source ≠ k ∧ r.target ≠ k) →
      k ≠ hubOf es rs eo → hubOf es rs eo ≠ [] →
      (normalizeNetworkData es rs eo).relationships.count
        (fallbackRel (hubOf es rs eo) k) = 1) := by
  refine ⟨fun k => counts_getD _ k, fun h => (hub_spec es rs eo h).2.2.2,
    fun h => ?_, fun k hk horph hkhub hhubne => ?_⟩
  · show mainEntityNameOf (materializedOf es rs eo) (survivingRelsOf es rs eo)
      = (keysOf (materializedOf es rs eo)).headD []
    rw [h]
    by_cases hlen : 0 < (materializedOf es rs eo).length
    · simp [mainEntityNameOf, countsOf, scanMax, hlen, keysOf]
    · have hnil : materializedOf es rs eo = [] := by
        cases hmat : materializedOf es rs eo with
        | nil => rfl
        | cons a t => rw [hmat] at hlen; simp at hlen
      rw [hnil]
      simp [mainEntityNameOf, countsOf, scanMax, keysOf]
  · -- the hub is materialized
    have hnemne : materializedOf es rs eo ≠ [] := by
      intro hcon
      rw [hcon] at hk
      simp [keysOf] at hk
    have hhubhas : mapHas (materializedOf es rs eo) (hubOf es rs eo) = true := by
      by_cases hnrs : survivingRelsOf es rs eo = []
      · have hhub : hubOf es rs eo = (keysOf (materializedOf es rs eo)).headD [] := by
          show mainEntityNameOf (materializedOf es rs eo)
            (survivingRelsOf es rs eo) = _
          rw [hnrs]
          have hlen : 0 < (materializedOf es rs eo).length :=
            List.length_pos.mpr hnemne
          simp [mainEntityNameOf, countsOf, scanMax, hlen, keysOf]
        rw [hhub, mapHas_iff]
        refine headD_mem _ ?_
        intro hcon
        rw [keysOf] at hcon
        exact hnemne (List.map_eq_nil_iff.mp hcon)
      · exact (hub_spec es rs eo hnrs).2.1
    have hconn : k ∉ connectedOf (survivingRelsOf es rs eo) := by
      intro hcon
      rw [mem_connectedOf] at hcon
      obtain ⟨r, hr, hrx⟩ := hcon
      obtain ⟨h1, h2⟩ := horph r hr
      rcases hrx with h | h
      · exact h1 h
      · exact h2 h
    rw [normalizeNetworkData_eq]
    simp only
    rw [List.count_append]
    have hzero : (survivingRelsOf es rs eo).count
        (fallbackRel (hubOf es rs eo) k) = 0 := by
      rw [List.count_eq_zero]
      intro hmem
      have hfalse : (fallbackRel (hubOf es rs eo) k).is_fallback = false :=
        nrs_not_fallback rs (entityMapOf es rs) (nonEnglishOf es rs) eo
          (materializedOf es rs eo) _ hmem
      simp [fallbackRel] at hfalse
    rw [hzero]
    have hone : (fallbacksOf (materializedOf es rs eo)
        (survivingRelsOf es rs eo)).count (fallbackRel (hubOf es rs eo) k) = 1 := by
      refine count_filterMap_one _ _ k (materializedOf es rs eo)
        (nodup_materialize _ _ _ _ _) hk (fun p hp => ?_) (fun p hp b' hb' => ?_)
      · simp only [hp]
        rw [if_pos ⟨hconn, ⟨hhubne, hhubhas⟩, hkhub⟩]
        rfl
      · by_cases hc : p.1 ∉ connectedOf (survivingRelsOf es rs eo) ∧
            (mainEntityNameOf (materializedOf es rs eo)
                (survivingRelsOf es rs eo) ≠ [] ∧
              mapHas (materializedOf es rs eo)
                (mainEntityNameOf (materializedOf es rs eo)
                  (survivingRelsOf es rs eo)) = true) ∧
            p.1 ≠ mainEntityNameOf (materializedOf es rs eo)
              (survivingRelsOf es rs eo)
        · rw [if_pos hc] at hb'
          injection hb' with hb'
          subst hb'
          intro hcon
          have : p.1 = k := by
            have := congrArg NormRel.target hcon
            exact this
          exact hp this
        · rw [if_neg hc] at hb'
          exact absurd hb' (by simp)
    rw [hone]

/-- Witness for the amended C7 at the alpha/beta/gamma scenario. -/
theorem claim_C7_amended_witness :
    specFirstMax (countsOf (survivingRelsOf
      [{ name := js "alpha", type_ := js "person", role := [] },
       { name := js "beta", type_ := js "person", role := [] },
       { name := js "gamma", type_ := js "person", role := [] }]
      [{ source := js "alpha", target := js "beta", type_ := js "ally",
         sentiment := js "neutral", strength := 2, description := [] }]
      false)) = some (hubOf
      [{ name := js "alpha", type_ := js "person", role := [] },
       { name := js "beta", type_ := js "person", role := [] },
       { name := js "gamma", type_ := js "person", role := [] }]
      [{ source := js "alpha", target := js "beta", type_ := js "ally",
         sentiment := js "neutral", strength := 2, description := [] }]
      false) ∧
    (normalizeNetworkData
      [{ name := js "alpha", type_ := js "person", role := [] },
       { name := js "beta", type_ := js "person", role := [] },
       { name := js "gamma", type_ := js "person", role := [] }]
      [{ source := js "alpha", target := js "beta", type_ := js "ally",
         sentiment := js "neutral", strength := 2, description := [] }]
      false).relationships.count (fallbackRel (hubOf
        [{ name := js "alpha", type_ := js "person", role := [] },
         { name := js "beta", type_ := js "person", role := [] },
         { name := js "gamma", type_ := js "person", role := [] }]
        [{ source := js "alpha", target := js "beta", type_ := js "ally",
           sentiment := js "neutral", strength := 2, description := [] }]
        false) (js "gamma")) = 1 :=
  ⟨(claim_C7_amended_hub_and_fallbacks _ _ false).2.1 (by decide),
   (claim_C7_amended_hub_and_fallbacks _ _ false).2.2.2 (js "gamma")
     (by decide) (by decide) (by decide) (by decide)⟩

end LeaderSim
